import Mathlib

/-!
Verification of the PDF→CSV table-extraction pipeline (`src/app.py`).

The development shallowly embeds the pure core of the program:
`extract_date_from_filename`, `normalize`, `read_pdf_tables` and
`process_pdfs` (with the pandas cleaning/promotion/stamping steps made
explicit).  The external table-detection engine (`camelot.read_pdf`) is
an oracle parameter `detect`, and the filesystem is represented by the
list of CSV write events the run performs.  Text is modelled at the
level of ASCII characters (Python's `\s`, `str.lower`, `str.strip` are
modelled on their ASCII fragment).
-/

set_option maxHeartbeats 4000000
set_option maxRecDepth 10000

namespace PdfCsv

/-! ## Python-like character/string primitives -/

/-- Whitespace characters of Python's `str.strip` and the regex class
`\s` (ASCII fragment). -/
def pyIsSpace (c : Char) : Bool :=
  c == ' ' || c == '\t' || c == '\n' || c == '\r' || c == '\x0b' || c == '\x0c'

/-- Remove leading whitespace. -/
def stripL (l : List Char) : List Char := l.dropWhile pyIsSpace

/-- Python `str.strip()`: drop leading and trailing whitespace. -/
def pyStrip (l : List Char) : List Char := ((stripL l).reverse.dropWhile pyIsSpace).reverse

/-- Python `re.sub(r"\s+", " ", ·)`: collapse each maximal run of
whitespace characters to a single space. -/
def collapseWS : List Char → List Char
  | [] => []
  | [c] => if pyIsSpace c then [' '] else [c]
  | a :: b :: r =>
    if pyIsSpace a then
      if pyIsSpace b then collapseWS (b :: r)
      else ' ' :: collapseWS (b :: r)
    else a :: collapseWS (b :: r)

/-- If `pat` is a prefix of `s`, return the rest of `s` after it. -/
def dropPref : List Char → List Char → Option (List Char)
  | [], s => some s
  | _ :: _, [] => none
  | p :: ps, c :: cs => if p = c then dropPref ps cs else none

/-- Does `s` contain `pat` as a contiguous substring? -/
def containsTok (pat : List Char) : List Char → Bool
  | [] => (dropPref pat []).isSome
  | c :: r => (dropPref pat (c :: r)).isSome || containsTok pat r

/-- One pass of Python `str.replace(pat, repl)`: replace all
non-overlapping occurrences left to right.  `fuel` bounds the recursion
(the caller passes the length of `s`, which suffices whenever `pat` is
nonempty, as it is at every use site in the program). -/
def replaceFuel (pat repl : List Char) : Nat → List Char → List Char
  | _, [] => []
  | 0, s => s
  | fuel + 1, c :: r =>
    match dropPref pat (c :: r) with
    | some rest => repl ++ replaceFuel pat repl fuel rest
    | none => c :: replaceFuel pat repl fuel r

/-- Python `s.replace(pat, repl)` for nonempty `pat`. -/
def replaceAll (pat repl s : List Char) : List Char := replaceFuel pat repl s.length s

/-- Rebuild a `String` from its character list. -/
def strOf (l : List Char) : String := ⟨l⟩

/-- ASCII fragment of Python `str.lower`. -/
def lowerCh (c : Char) : Char :=
  if 'A' ≤ c ∧ c ≤ 'Z' then Char.ofNat (c.toNat + 32) else c

/-- ASCII fragment of Python `str.lower` on strings. -/
def asciiLower (s : String) : String := strOf (s.data.map lowerCh)

/-! ## `normalize` (src/app.py lines 32-36) -/

/-- Column-name normalizer of `src/app.py`:
`str(col).strip()`, collapse whitespace runs, then the three literal
substring replacements. -/
def normalize (col : String) : String :=
  strOf (replaceAll "Open Rate".data "Open".data
    (replaceAll "Last Rate".data "Last".data
      (replaceAll "Prv.".data "Prev".data
        (collapseWS (pyStrip col.data)))))

/-! ## `extract_date_from_filename` (src/app.py lines 24-30)

`datetime.strptime(stem, "%Y-%m-%d")` compiles (per CPython's
`_strptime`) to the anchored regex
`(?P<Y>\d\d\d\d)\-(?P<m>1[0-2]|0[1-9]|[1-9])\-(?P<d>3[01]|[12]\d|0[1-9]|[1-9])`
followed by a check that the whole string was consumed, and then
`datetime.date` validation of the (year, month, day) values.  The
parsers below mirror those alternations in order; the backtracking of
the real regex engine never changes the outcome here because a shorter
month/day alternative can succeed where a longer one matched only if the
following literal `-` (a non-digit) also matches, which it cannot. -/

structure YMD where
  y : Nat
  m : Nat
  d : Nat
deriving DecidableEq

/-- Gregorian leap-year rule used by `datetime.date`. -/
def isLeap (y : Nat) : Bool := y % 4 = 0 ∧ (y % 100 ≠ 0 ∨ y % 400 = 0)

/-- Days in a month, as validated by `datetime.date`. -/
def daysInMonth (y m : Nat) : Nat :=
  if m = 2 then (if isLeap y then 29 else 28)
  else if m = 4 ∨ m = 6 ∨ m = 9 ∨ m = 11 then 30
  else 31

/-- ASCII digit test (regex `\d` on ASCII input). -/
def isDigitCh (c : Char) : Bool := 48 ≤ c.toNat ∧ c.toNat ≤ 57

/-- Numeric value of an ASCII digit. -/
def digitVal (c : Char) : Nat := c.toNat - 48

/-- The digit character for `n < 10`. -/
def digitCh (n : Nat) : Char := Char.ofNat (48 + n)

/-- Regex `(?P<Y>\d\d\d\d)`: exactly four digits. -/
def parseY : List Char → Option (Nat × List Char)
  | a :: b :: c :: d :: r =>
    if isDigitCh a ∧ isDigitCh b ∧ isDigitCh c ∧ isDigitCh d then
      some (((digitVal a * 10 + digitVal b) * 10 + digitVal c) * 10 + digitVal d, r)
    else none
  | _ => none

/-- Regex `(?P<m>1[0-2]|0[1-9]|[1-9])`, alternatives in order. -/
def parseM : List Char → Option (Nat × List Char)
  | a :: b :: r =>
    if a = '1' ∧ 48 ≤ b.toNat ∧ b.toNat ≤ 50 then some (10 + digitVal b, r)
    else if a = '0' ∧ 49 ≤ b.toNat ∧ b.toNat ≤ 57 then some (digitVal b, r)
    else if 49 ≤ a.toNat ∧ a.toNat ≤ 57 then some (digitVal a, b :: r)
    else none
  | [a] => if 49 ≤ a.toNat ∧ a.toNat ≤ 57 then some (digitVal a, []) else none
  | [] => none

/-- Regex `(?P<d>3[01]|[12]\d|0[1-9]|[1-9])`, alternatives in order. -/
def parseD : List Char → Option (Nat × List Char)
  | a :: b :: r =>
    if a = '3' ∧ 48 ≤ b.toNat ∧ b.toNat ≤ 49 then some (30 + digitVal b, r)
    else if (49 ≤ a.toNat ∧ a.toNat ≤ 50) ∧ isDigitCh b then
      some (digitVal a * 10 + digitVal b, r)
    else if a = '0' ∧ 49 ≤ b.toNat ∧ b.toNat ≤ 57 then some (digitVal b, r)
    else if 49 ≤ a.toNat ∧ a.toNat ≤ 57 then some (digitVal a, b :: r)
    else none
  | [a] => if 49 ≤ a.toNat ∧ a.toNat ≤ 57 then some (digitVal a, []) else none
  | [] => none

/-- `datetime.strptime(s, "%Y-%m-%d").date()`: the anchored regex match
consuming the whole string, then `datetime.date`'s range validation
(year at least 1; day within the month). -/
def strptimeYMD (s : List Char) : Option YMD :=
  match parseY s with
  | none => none
  | some (y, r1) =>
    match r1 with
    | [] => none
    | c1 :: r1x =>
      if c1 = '-' then
        match parseM r1x with
        | none => none
        | some (m, r2) =>
          match r2 with
          | [] => none
          | c2 :: r2x =>
            if c2 = '-' then
              match parseD r2x with
              | none => none
              | some (d, r3) =>
                match r3 with
                | [] => if 1 ≤ y ∧ d ≤ daysInMonth y m then some ⟨y, m, d⟩ else none
                | _ :: _ => none
            else none
      else none

/-- `os.path.basename` (POSIX): the part after the last separator. -/
def basenameChars (l : List Char) : List Char :=
  (l.reverse.takeWhile (fun c => c ≠ '/')).reverse

/-- Stem of `os.path.splitext`: cut at the last dot, unless every
character before that dot is itself a dot (then nothing is split). -/
def stemChars (l : List Char) : List Char :=
  match l.reverse.dropWhile (fun c => c ≠ '.') with
  | [] => l
  | _ :: preRev => if preRev.any (fun c => c ≠ '.') then preRev.reverse else l

/-- `extract_date_from_filename` of src/app.py: parse the stem of the
basename as a `%Y-%m-%d` date, `None` on any failure. -/
def extract_date_from_filename (fname : String) : Option YMD :=
  strptimeYMD (stemChars (basenameChars fname.data))

/-! ## Tables and the detector adapter (src/app.py lines 38-51)

A `RawTable` is `camelot` table content: rows of text cells (`t.df`).
`camelot.read_pdf` is the external black box; it is a parameter
`detect : path → pages → flavor → Except error (List RawTable)`. -/

/-- Cells of a (cleaned) table: a string, or the calendar date stamped
from the filename; `none` models a pandas `NA`. -/
inductive Cell where
  | str : String → Cell
  | date : YMD → Cell
deriving DecidableEq

abbrev Row := List (Option Cell)

/-- A pandas DataFrame: column labels plus data rows. -/
structure DF where
  cols : List String
  rows : List Row
deriving DecidableEq

abbrev RawTable := List (List String)

/-- The detection oracle standing for `camelot.read_pdf`. -/
abbrev Detect := String → String → String → Except String (List RawTable)

/-- `sum(t.shape[0] for t in tbls)`: total row count of a result set. -/
def totalRows (ts : List RawTable) : Nat := (ts.map List.length).sum

/-- The flavor loop of `read_pdf_tables`, threading `last_exc`. -/
def readLoop (detect : Detect) (pdf_path pages : String) :
    List String → Option String → Except String (List RawTable × Option String)
  | [], none => .ok ([], none)
  | [], some e => .error e
  | flv :: rest, last_exc =>
    match detect pdf_path pages flv with
    | .ok tbls =>
      if tbls ≠ [] ∧ 0 < totalRows tbls then .ok (tbls, some flv)
      else readLoop detect pdf_path pages rest last_exc
    | .error e => readLoop detect pdf_path pages rest (some e)

/-- `read_pdf_tables` of src/app.py: try flavors in order until one
yields rows; re-raise the last error if none returned. -/
def read_pdf_tables (detect : Detect) (pdf_path pages : String) (flavors : List String) :
    Except String (List RawTable × Option String) :=
  readLoop detect pdf_path pages flavors none

/-! ## The per-document build steps (src/app.py lines 78-105) -/

/-- All rows of all tables, in order (`pd.concat(..., ignore_index=True)`). -/
def allRows (ts : List RawTable) : List (List String) := ts.foldr (fun t acc => t ++ acc) []

/-- Width of the concatenated frame: `pd.concat` aligns the integer
column labels, so the result has the maximum width, shorter rows being
padded with `NA`. -/
def maxW (ts : List RawTable) : Nat := ((allRows ts).map List.length).foldr Nat.max 0

/-- Pad a row with `NA` cells up to width `w`. -/
def padTo (w : Nat) (r : List (Option Cell)) : Row := r ++ List.replicate (w - r.length) none

/-- `pd.concat([t.df for t in tables], ignore_index=True)`: one frame
with integer column labels `0..w-1` (as their string forms, so that the
later `normalize(str(col))` acts on them uniformly). -/
def mergeTables (ts : List RawTable) : DF :=
  { cols := (List.range (maxW ts)).map (fun n => toString n),
    rows := (allRows ts).map (fun r => padTo (maxW ts) (r.map (fun s => some (Cell.str s)))) }

/-- A cell matching the regex `^\s*$`: empty or all-whitespace. -/
def isBlankStr (s : String) : Bool := s.data.all pyIsSpace

/-- `replace(r"^\s*$", pd.NA, regex=True)` on one cell. -/
def blankCell : Option Cell → Option Cell
  | some (Cell.str s) => if isBlankStr s then none else some (Cell.str s)
  | c => c

/-- Blank normalization over the whole frame. -/
def blankNorm (df : DF) : DF := { cols := df.cols, rows := df.rows.map (fun r => r.map blankCell) }

/-- Does a row hold at least one non-`NA` cell? -/
def rowHasData (r : Row) : Bool := r.any (fun c => c.isSome)

/-- `dropna(how="all", axis=0)`. -/
def dropAllNaRows (df : DF) : DF := { cols := df.cols, rows := df.rows.filter rowHasData }

/-- Does column `j` hold at least one non-`NA` cell? -/
def colHasData (rows : List Row) (j : Nat) : Bool := rows.any (fun r => (r.getD j none).isSome)

/-- Indices of the columns kept by `dropna(how="all", axis=1)` (note
that on a frame with zero rows every column counts as all-`NA` and is
dropped, exactly as pandas does). -/
def keepIdx (df : DF) : List Nat := (List.range df.cols.length).filter (colHasData df.rows)

/-- `dropna(how="all", axis=1)`. -/
def dropAllNaCols (df : DF) : DF :=
  { cols := (keepIdx df).map (fun j => df.cols.getD j ""),
    rows := df.rows.map (fun r => (keepIdx df).map (fun j => r.getD j none)) }

/-- The hardcoded header keyword list of src/app.py line 86. -/
def header_candidates : List String :=
  ["Company", "Company Name", "Turnover", "Prv.Rate", "Open", "Highest", "Lowest",
   "Last", "Rate", "Diff"]

/-- `hc.lower() in x.lower()`: case-insensitive substring test. -/
def containsCI (hc x : String) : Bool := containsTok (asciiLower hc).data (asciiLower x).data

/-- `isinstance(x, str) and hc.lower() in x.lower()` for one cell
(`NA` cells are not strings and never match). -/
def cellMatches (hc : String) : Option Cell → Bool
  | some (Cell.str s) => containsCI hc s
  | _ => false

/-- ISO rendering of a date, as Python `str(datetime.date)`. -/
def pad2 (n : Nat) : List Char := [digitCh (n / 10 % 10), digitCh (n % 10)]

/-- Four-digit zero-padded rendering. -/
def pad4 (n : Nat) : List Char :=
  [digitCh (n / 1000 % 10), digitCh (n / 100 % 10), digitCh (n / 10 % 10), digitCh (n % 10)]

/-- `str(datetime.date(y, m, d))` = ISO `YYYY-MM-DD`. -/
def dateISO (v : YMD) : String := strOf (pad4 v.y ++ '-' :: (pad2 v.m ++ '-' :: pad2 v.d))

/-- `pdf_df.iloc[0].astype(str).str.strip()` on one header cell
(`str(pd.NA)` is the text `<NA>`). -/
def promoteCellLabel : Option Cell → String
  | none => "<NA>"
  | some (Cell.str s) => strOf (pyStrip s.data)
  | some (Cell.date v) => dateISO v

/-- Header promotion (src/app.py lines 86-89): if any cell of the first
row case-insensitively contains a known header token, that row becomes
the column labels and is dropped from the data. -/
def promoteHeader (df : DF) : DF :=
  match df.rows with
  | [] => df
  | r0 :: rest =>
    if header_candidates.any (fun hc => r0.any (cellMatches hc)) then
      { cols := r0.map promoteCellLabel, rows := rest }
    else df

/-- `pdf_df.columns = [normalize(c) for c in pdf_df.columns]`. -/
def normCols (df : DF) : DF := { cols := df.cols.map normalize, rows := df.rows }

/-- `pdf_df.insert(0, "Date", date_val)`: prepend a `Date` column with
the date replicated on every row; pandas raises if a `Date` column
already exists, which propagates out of `process_pdfs` uncaught. -/
def insertDate (dv : Option YMD) (df : DF) : Except String DF :=
  match dv with
  | none => .ok df
  | some v =>
    if "Date" ∈ df.cols then .error "cannot insert Date, already exists"
    else .ok { cols := "Date" :: df.cols, rows := df.rows.map (fun r => some (Cell.date v) :: r) }

/-- Count of non-`NA` cells in a row (`notna().sum(axis=1)`). -/
def countNonNull (r : Row) : Nat := (r.filter (fun c => c.isSome)).length

/-- The master-inclusion mask `pdf_df.notna().sum(axis=1) >= 3`. -/
def qualifiesB (r : Row) : Bool := decide (3 ≤ countNonNull r)

/-- The cleaned frame: merge, blank-normalize, drop all-`NA` rows, then
drop all-`NA` columns (src/app.py lines 78-83). -/
def cleanedDF (ts : List RawTable) : DF := dropAllNaCols (dropAllNaRows (blankNorm (mergeTables ts)))

/-- The frame after header promotion and column normalization
(src/app.py lines 86-92), before date stamping. -/
def builtDF (ts : List RawTable) : DF := normCols (promoteHeader (cleanedDF ts))

/-! ## The corpus loop `process_pdfs` (src/app.py lines 53-122) -/

/-- `fname.replace(".pdf", ".csv")` (literal, case-sensitive). -/
def csvName (fname : String) : String := strOf (replaceAll ".pdf".data ".csv".data fname.data)

/-- `os.path.join` for the POSIX separator. -/
def joinPath (a b : String) : String := a ++ "/" ++ b

/-- The `{n:>5}` field of the ok log line. -/
def padLeft5 (s : String) : String := strOf (List.replicate (5 - s.data.length) ' ' ++ s.data)

/-- How Python prints the selected flavor (`None` when absent). -/
def flavorStr : Option String → String
  | none => "None"
  | some f => f

/-- The `ok` log message of src/app.py line 107. -/
def okMsg (fname : String) (n : Nat) (flv : Option String) (out_csv : String) : String :=
  fname ++ "  | rows: " ++ padLeft5 (toString n) ++ " | flavor: " ++ flavorStr flv ++
    " | saved: " ++ out_csv

/-- Outcome of one iteration of the document loop: its log entry, its
CSV write event (if any), and the rows it contributes to the master. -/
structure DocResult where
  log : String × String
  write : Option (String × DF)
  master : List Row
deriving DecidableEq

/-- One iteration of the `for fname in pdf_files` loop of
`process_pdfs` (src/app.py lines 64-107).  An `.error` is an uncaught
exception (only the duplicate-`Date` insert can raise one here), which
aborts the whole run as it does in Python. -/
def processDoc (detect : Detect) (pdf_dir out_dir pages : String) (flavors : List String)
    (fname : String) : Except String DocResult :=
  match read_pdf_tables detect (joinPath pdf_dir fname) pages flavors with
  | .error e => .ok ⟨("warn", fname ++ ": error reading (" ++ e ++ ")"), none, []⟩
  | .ok (tables, used_flavor) =>
    if tables = [] then .ok ⟨("warn", "No tables found in " ++ fname), none, []⟩
    else
      match insertDate (extract_date_from_filename fname) (builtDF tables) with
      | .error e => .error e
      | .ok df =>
        .ok ⟨("ok", okMsg fname df.rows.length used_flavor (joinPath out_dir (csvName fname))),
             some (joinPath out_dir (csvName fname), df),
             df.rows.filter qualifiesB⟩

/-- The document loop, in order; an uncaught exception aborts the rest. -/
def runDocs (detect : Detect) (pdf_dir out_dir pages : String) (flavors : List String) :
    List String → Except String (List DocResult)
  | [] => .ok []
  | f :: rest =>
    match processDoc detect pdf_dir out_dir pages flavors f with
    | .error e => .error e
    | .ok d =>
      match runDocs detect pdf_dir out_dir pages flavors rest with
      | .error e => .error e
      | .ok ds => .ok (d :: ds)

/-- Code-point lexicographic order on character lists (Python string
comparison used by `sorted`). -/
def charListLe : List Char → List Char → Bool
  | [], _ => true
  | _ :: _, [] => false
  | a :: as, b :: bs => if a = b then charListLe as bs else decide (a < b)

/-- Insertion step of the sort. -/
def insertSorted (a : String) : List String → List String
  | [] => [a]
  | b :: r => if charListLe a.data b.data then a :: b :: r else b :: insertSorted a r

/-- `sorted(...)` on filenames. -/
def sortStrings (l : List String) : List String := l.foldr insertSorted []

/-- `f.lower().endswith(".pdf")`. -/
def endsWithDotPdf (f : String) : Bool := ".pdf".data.isSuffixOf (asciiLower f).data

/-- The observable outcome of a run: the log, the per-document CSV
write events (path and frame, in order), and the master CSV (path and
rows) when one is written. -/
structure RunResult where
  logs : List (String × String)
  writes : List (String × DF)
  master : Option (String × List Row)
deriving DecidableEq

/-- The master-warn message of src/app.py line 120. -/
def masterWarnMsg : String := "No rows extracted — try changing flavors/order or page ranges."

/-- `process_pdfs` of src/app.py: filter and sort the listing, run the
document loop, then assemble the master table.  The `listing` parameter
stands for `os.listdir(pdf_dir)`.  (The pandas label alignment of the
final `pd.concat` is not modelled beyond the identity, order and count
of the master rows, which is all the claims speak about.) -/
def process_pdfs (detect : Detect) (pdf_dir out_dir pages : String) (flavors : List String)
    (listing : List String) : Except String RunResult :=
  let pdf_files := sortStrings (listing.filter endsWithDotPdf)
  if pdf_files = [] then
    .ok ⟨[("warn", "No PDFs found in " ++ pdf_dir)], [], none⟩
  else
    match runDocs detect pdf_dir out_dir pages flavors pdf_files with
    | .error e => .error e
    | .ok results =>
      let logs := results.map DocResult.log
      let writes := results.filterMap DocResult.write
      let all_rows := results.foldr (fun d acc => d.master ++ acc) []
      if all_rows = [] then
        .ok ⟨logs ++ [("master-warn", masterWarnMsg)], writes, none⟩
      else
        .ok ⟨logs ++ [("master", "Combined rows: " ++ toString all_rows.length ++ " | saved: " ++
                joinPath out_dir "psx_closing_rates_master.csv")],
             writes,
             some (joinPath out_dir "psx_closing_rates_master.csv", all_rows)⟩

/-! ## Date renderings (used to characterise the Date Resolver) -/

/-- A (year, month, day) triple that `datetime.date` accepts. -/
def validYMD (v : YMD) : Prop :=
  1 ≤ v.y ∧ v.y ≤ 9999 ∧ 1 ≤ v.m ∧ v.m ≤ 12 ∧ 1 ≤ v.d ∧ v.d ≤ daysInMonth v.y v.m

/-- The textual forms of a month accepted by strptime's `%m`: one digit
(without zero padding) or two digits. -/
def mForms (m : Nat) : List (List Char) :=
  if m < 10 then [[digitCh m], ['0', digitCh m]] else [pad2 m]

/-- The textual forms of a day accepted by strptime's `%d`. -/
def dForms (d : Nat) : List (List Char) :=
  if d < 10 then [[digitCh d], ['0', digitCh d]] else [pad2 d]

/-- All stems that strptime parses to the date `v`: a 4-digit year, a
dash, a month form, a dash, a day form. -/
def ymdRenders (v : YMD) : List (List Char) :=
  (mForms v.m).flatMap
    (fun ms => (dForms v.d).map (fun ds => pad4 v.y ++ '-' :: (ms ++ '-' :: ds)))

/-- The strict `YYYY-MM-DD` pattern, as the specification words it:
four digits, a dash, two digits, a dash, two digits.  (This definition
follows the claim's words, to be compared with the behaviour of
`extract_date_from_filename`, which is translated from the source.) -/
def isStrictYMD : List Char → Bool
  | [a, b, c, d, e, f, g, h, i, j] =>
    isDigitCh a && isDigitCh b && isDigitCh c && isDigitCh d && (e == '-') &&
    isDigitCh f && isDigitCh g && (h == '-') && isDigitCh i && isDigitCh j
  | _ => false

/-! ## Canonical whitespace form (used to analyse `normalize`) -/

/-- Interior canonical-whitespace check: every whitespace character is
a single `' '` followed by a non-whitespace character (in particular no
run of two, no non-space whitespace, and no trailing space). -/
def canonAux : List Char → Bool
  | [] => true
  | [c] => !pyIsSpace c
  | a :: b :: r =>
    if a = ' ' then (!pyIsSpace b) && canonAux (b :: r)
    else (!pyIsSpace a) && canonAux (b :: r)

/-- Is the first character absent or non-whitespace? -/
def headNotWS : List Char → Bool
  | [] => true
  | c :: _ => !pyIsSpace c

/-- Is the last character absent or non-whitespace? -/
def lastNotWS (l : List Char) : Prop := ∀ c ∈ l.getLast?, pyIsSpace c = false

/-! ## Concrete oracles and runs used by claim witnesses and counterexamples -/

/-- Oracle for the C2 witness: one erroring flavor, one zero-row
flavor, one succeeding flavor. -/
def c2detect : Detect := fun _ _ flv =>
  if flv = "err" then .error "boom"
  else if flv = "zero" then .ok [[], []]
  else .ok [[["x"]]]

/-- Oracle for the C2 witness whose flavors all raise. -/
def c2errDetect : Detect := fun _ _ flv => .error ("fail-" ++ flv)

/-- Oracle for the C2 witness whose flavors all return zero rows. -/
def c2zeroDetect : Detect := fun _ _ _ => .ok []

/-- Oracle returning one table with one all-blank row: selected by the
adapter (its total row count is 1 > 0) yet empty after cleaning. -/
def blankOneDetect : Detect := fun _ _ _ => .ok [[[" "]]]

/-- Oracle returning one table: a header row recognisable by the
`Company` keyword plus two data rows, the second with a blank cell. -/
def smallDetect : Detect := fun _ _ _ =>
  .ok [[["Company", "Rate"], ["Acme", "12"], ["Beta", ""]]]

/-- The run of the C1 counterexample: a dated document whose only
detected table is all-blank. -/
def c1res : RunResult :=
  (process_pdfs blankOneDetect "in" "out" "all" ["lattice"] ["2024-01-05.pdf"]).toOption.getD
    ⟨[], [], none⟩

/-- The run of the C3 witness: a dated document with one qualifying and
one non-qualifying row. -/
def c3res : RunResult :=
  (process_pdfs smallDetect "in" "out" "all" ["lattice"] ["2024-01-05.pdf"]).toOption.getD
    ⟨[], [], none⟩

/-- The qualifying row of the C3 witness (date cell plus two data
cells: 3 non-null cells). -/
def c3row : Row := [some (Cell.date ⟨2024, 1, 5⟩), some (Cell.str "Acme"), some (Cell.str "12")]

/-- The run of the C6 counterexample: an undated document whose only
detected table is all-blank, so the cleaned frame has zero columns. -/
def c6res : RunResult :=
  (process_pdfs blankOneDetect "in" "out" "all" ["lattice"] ["file.pdf"]).toOption.getD
    ⟨[], [], none⟩

/-- The run of the C8 counterexample: an upper-case `.PDF` extension
passes the case-insensitive input filter, but the case-sensitive
`fname.replace(".pdf", ".csv")` leaves the output name unchanged. -/
def c8res : RunResult :=
  (process_pdfs smallDetect "in" "out" "all" ["lattice"] ["REPORT.PDF"]).toOption.getD
    ⟨[], [], none⟩

/-- A default `DocResult` for concrete extraction. -/
def defaultDoc : DocResult := ⟨("", ""), none, []⟩

/-- Oracle returning a single data row with exactly two non-blank
cells and no recognisable header keywords. -/
def twoCellDetect : Detect := fun _ _ _ => .ok [[["a", "b"]]]

/-- Per-document outcome of the dated witness document. -/
def cDoc1 : DocResult :=
  (processDoc twoCellDetect "in" "out" "all" ["lattice"] "2024-01-05.pdf").toOption.getD defaultDoc

/-- Per-document outcome of the undated witness document. -/
def cDoc2 : DocResult :=
  (processDoc twoCellDetect "in" "out" "all" ["lattice"] "file.pdf").toOption.getD defaultDoc

/-- The two-non-null-cell data row shared by the witness documents. -/
def twoCellRow : Row := [some (Cell.str "a"), some (Cell.str "b")]

/-! ## Claim C2: strategy selection in `read_pdf_tables` -/

theorem totalRows_pos_ne_nil {ts : List RawTable} (h : 0 < totalRows ts) : ts ≠ [] := by
  rintro rfl
  simp [totalRows] at h

theorem readLoop_all_zero (detect : Detect) (p pg : String) (flavors : List String) :
    ∀ acc, (∀ f ∈ flavors, ∃ ts, detect p pg f = .ok ts ∧ totalRows ts = 0) →
      readLoop detect p pg flavors acc =
        (match acc with | none => .ok ([], none) | some e => .error e) := by
  induction flavors with
  | nil => intro acc _; cases acc <;> rfl
  | cons flv rest ih =>
    intro acc h
    obtain ⟨ts, hok, hz⟩ := h flv (List.mem_cons_self _ _)
    have hrec := ih acc (fun f hf => h f (List.mem_cons_of_mem _ hf))
    simp only [readLoop, hok]
    rw [if_neg (by rintro ⟨-, hp⟩; omega)]
    exact hrec

theorem readLoop_all_err (detect : Detect) (p pg : String) (flavors : List String) :
    ∀ acc flv e, (∀ f ∈ flavors, ∃ e', detect p pg f = .error e') →
      flavors.getLast? = some flv → detect p pg flv = .error e →
      readLoop detect p pg flavors acc = .error e := by
  induction flavors with
  | nil => intro acc flv e _ hlast _; simp at hlast
  | cons a rest ih =>
    intro acc flv e h hlast hdet
    obtain ⟨e', ha⟩ := h a (List.mem_cons_self _ _)
    simp only [readLoop, ha]
    cases rest with
    | nil =>
      have hfa : flv = a := by simpa using hlast.symm
      subst hfa
      rw [ha] at hdet
      injection hdet with he
      subst he
      rfl
    | cons b rest2 =>
      have hlast2 : (b :: rest2).getLast? = some flv := by
        rwa [List.getLast?_cons_cons] at hlast
      exact ih (some e') flv e (fun f hf => h f (List.mem_cons_of_mem _ hf)) hlast2 hdet

theorem readLoop_first_pos (detect : Detect) (p pg : String) :
    ∀ (pre : List String) (flv : String) (post : List String) (tbls : List RawTable) acc,
      (∀ f ∈ pre, (∃ e, detect p pg f = .error e) ∨
        (∃ ts, detect p pg f = .ok ts ∧ totalRows ts = 0)) →
      detect p pg flv = .ok tbls → 0 < totalRows tbls →
      readLoop detect p pg (pre ++ flv :: post) acc = .ok (tbls, some flv) := by
  intro pre
  induction pre with
  | nil =>
    intro flv post tbls acc _ hok hpos
    simp only [List.nil_append, readLoop, hok]
    rw [if_pos ⟨totalRows_pos_ne_nil hpos, hpos⟩]
  | cons a rest ih =>
    intro flv post tbls acc h hok hpos
    rcases h a (List.mem_cons_self _ _) with ⟨e, ha⟩ | ⟨ts, ha, hz⟩
    · simp only [List.cons_append, readLoop, ha]
      exact ih flv post tbls (some e) (fun f hf => h f (List.mem_cons_of_mem _ hf)) hok hpos
    · simp only [List.cons_append, readLoop, ha]
      rw [if_neg (by rintro ⟨-, hp⟩; omega)]
      exact ih flv post tbls acc (fun f hf => h f (List.mem_cons_of_mem _ hf)) hok hpos

/-- C2: the Table Detector adapter returns the result set of the first
strategy whose total row count (summed across its RawTables) is
positive, with that strategy's name; if every strategy raises, the last
error encountered is propagated; and if every strategy returns but all
yield zero total rows, the empty result with no selected name is
returned without error. -/
theorem C2_strategy_selection (detect : Detect) (path pages : String) :
    (∀ (pre : List String) (flv : String) (post : List String) (tbls : List RawTable),
      (∀ f ∈ pre, (∃ e, detect path pages f = .error e) ∨
        (∃ ts, detect path pages f = .ok ts ∧ totalRows ts = 0)) →
      detect path pages flv = .ok tbls → 0 < totalRows tbls →
      read_pdf_tables detect path pages (pre ++ flv :: post) = .ok (tbls, some flv))
    ∧ (∀ (flavors : List String) (flv : String) (e : String),
      (∀ f ∈ flavors, ∃ e', detect path pages f = .error e') →
      flavors.getLast? = some flv → detect path pages flv = .error e →
      read_pdf_tables detect path pages flavors = .error e)
    ∧ (∀ flavors : List String,
      (∀ f ∈ flavors, ∃ ts, detect path pages f = .ok ts ∧ totalRows ts = 0) →
      read_pdf_tables detect path pages flavors = .ok ([], none)) :=
  ⟨fun pre flv post tbls h hok hpos =>
      readLoop_first_pos detect path pages pre flv post tbls none h hok hpos,
   fun flavors flv e h hlast hdet =>
      readLoop_all_err detect path pages flavors none flv e h hlast hdet,
   fun flavors h => readLoop_all_zero detect path pages flavors none h⟩

theorem C2_strategy_selection_witness :
    read_pdf_tables c2detect "doc.pdf" "all" ["err", "zero", "good", "late"] =
      .ok ([[["x"]]], some "good")
    ∧ read_pdf_tables c2errDetect "doc.pdf" "all" ["a", "b"] = .error "fail-b"
    ∧ read_pdf_tables c2zeroDetect "doc.pdf" "all" ["a", "b"] = .ok ([], none) := by
  refine ⟨?_, ?_, ?_⟩
  · exact (C2_strategy_selection c2detect "doc.pdf" "all").1 ["err", "zero"] "good" ["late"]
      [[["x"]]]
      (by
        intro f hf
        rcases (by simpa using hf : f = "err" ∨ f = "zero") with rfl | rfl
        · exact Or.inl ⟨"boom", rfl⟩
        · exact Or.inr ⟨[[], []], rfl, rfl⟩)
      rfl (by decide)
  · exact (C2_strategy_selection c2errDetect "doc.pdf" "all").2.1 ["a", "b"] "b" "fail-b"
      (by
        intro f hf
        exact ⟨"fail-" ++ f, rfl⟩)
      rfl rfl
  · exact (C2_strategy_selection c2zeroDetect "doc.pdf" "all").2.2 ["a", "b"]
      (fun f _ => ⟨[], rfl, rfl⟩)

/-! ## Claim C9: the empty strategy list -/

/-- C9 counterexample: with an empty strategy list, `read_pdf_tables`
returns the normal successful empty result `([], None)` — even when the
detection oracle would raise on every call — rather than failing; the
claim that an empty list does not produce a normal successful result is
false on the code. -/
theorem C9_counterexample :
    read_pdf_tables (fun _ _ _ => Except.error "always fails") "doc.pdf" "all" [] =
      .ok ([], none) := rfl

/-- C9 amended: invoking detection with an empty strategy list is not
rejected; it returns the successful empty result (no tables, no
selected strategy name), indistinguishable from the legitimate
"no tables in this document" outcome, for every oracle, path and page
specifier. -/
theorem C9_amended_empty_list_ok (detect : Detect) (path pages : String) :
    read_pdf_tables detect path pages [] = .ok ([], none) := rfl

/-! ## Structure of the document loop -/

/-- The master contribution of a document is exactly the filter of its
persisted frame by the qualification mask (and empty when nothing was
persisted). -/
theorem processDoc_master_eq (detect : Detect) (pdf_dir out_dir pages : String)
    (flavors : List String) (fname : String) (d : DocResult)
    (h : processDoc detect pdf_dir out_dir pages flavors fname = .ok d) :
    d.master = (match d.write with
      | some pdf => pdf.2.rows.filter qualifiesB
      | none => []) := by
  unfold processDoc at h
  cases hr : read_pdf_tables detect (joinPath pdf_dir fname) pages flavors with
  | error e =>
    simp only [hr] at h
    injection h with h2
    subst h2
    rfl
  | ok tf =>
    obtain ⟨tables, flv⟩ := tf
    simp only [hr] at h
    by_cases ht : tables = []
    · rw [if_pos ht] at h
      injection h with h2
      subst h2
      rfl
    · rw [if_neg ht] at h
      cases hi : insertDate (extract_date_from_filename fname) (builtDF tables) with
      | error e =>
        simp only [hi] at h
        exact Except.noConfusion h
      | ok df =>
        simp only [hi] at h
        injection h with h2
        subst h2
        rfl

/-- Every `DocResult` of a successful loop arises from `processDoc` on
one of the listed files. -/
theorem runDocs_ok_mem (detect : Detect) (pdf_dir out_dir pages : String)
    (flavors : List String) :
    ∀ (files : List String) (results : List DocResult),
      runDocs detect pdf_dir out_dir pages flavors files = .ok results →
      ∀ d ∈ results, ∃ f ∈ files, processDoc detect pdf_dir out_dir pages flavors f = .ok d := by
  intro files
  induction files with
  | nil =>
    intro results h d hd
    injection h with h2
    subst h2
    simp at hd
  | cons f rest ih =>
    intro results h d hd
    unfold runDocs at h
    cases hp : processDoc detect pdf_dir out_dir pages flavors f with
    | error e =>
      simp only [hp] at h
      exact Except.noConfusion h
    | ok d0 =>
      simp only [hp] at h
      cases hrest : runDocs detect pdf_dir out_dir pages flavors rest with
      | error e =>
        simp only [hrest] at h
        exact Except.noConfusion h
      | ok ds =>
        simp only [hrest] at h
        injection h with h2
        subst h2
        rcases List.mem_cons.mp hd with rfl | hd2
        · exact ⟨f, List.mem_cons_self _ _, hp⟩
        · obtain ⟨g, hg, hgp⟩ := ih ds hrest d hd2
          exact ⟨g, List.mem_cons_of_mem _ hg, hgp⟩

/-- The CSV write events of a successful loop are the per-document
write events, one per successfully built document, in order. -/
theorem runDocs_filterMap_writes (detect : Detect) (pdf_dir out_dir pages : String)
    (flavors : List String) :
    ∀ (files : List String) (results : List DocResult),
      runDocs detect pdf_dir out_dir pages flavors files = .ok results →
      results.filterMap DocResult.write =
        files.filterMap (fun f =>
          (processDoc detect pdf_dir out_dir pages flavors f).toOption.bind DocResult.write) := by
  intro files
  induction files with
  | nil =>
    intro results h
    injection h with h2
    subst h2
    rfl
  | cons f rest ih =>
    intro results h
    unfold runDocs at h
    cases hp : processDoc detect pdf_dir out_dir pages flavors f with
    | error e =>
      simp only [hp] at h
      exact Except.noConfusion h
    | ok d0 =>
      simp only [hp] at h
      cases hrest : runDocs detect pdf_dir out_dir pages flavors rest with
      | error e =>
        simp only [hrest] at h
        exact Except.noConfusion h
      | ok ds =>
        simp only [hrest] at h
        injection h with h2
        subst h2
        simp only [List.filterMap_cons, ih ds hrest, hp, Except.toOption, Option.bind]

/-- Membership in the accumulated master rows. -/
theorem mem_fold_master (results : List DocResult) (r : Row) :
    r ∈ results.foldr (fun d acc => d.master ++ acc) [] ↔ ∃ d ∈ results, r ∈ d.master := by
  induction results with
  | nil => simp
  | cons d ds ih => simp [List.foldr_cons, ih]

/-! ## Claim C1: the empty-document outcomes -/

/-- When the merged frame loses every row to pruning, the whole build
collapses to the empty frame. -/
theorem builtDF_of_pruned_empty {ts : List RawTable}
    (h : (dropAllNaRows (blankNorm (mergeTables ts))).rows = []) :
    builtDF ts = ⟨[], []⟩ := by
  have hc : cleanedDF ts = ⟨[], []⟩ := by
    unfold cleanedDF dropAllNaCols keepIdx
    rw [h]
    simp [colHasData]
  unfold builtDF
  rw [hc]
  rfl

/-- C1 counterexample: a dated document whose selected table is
all-blank (so its merged frame is empty after pruning) is not warned
about and not skipped: the run's only per-document log entry has
severity `ok`, and a per-document CSV write still happens. -/
theorem C1_counterexample :
    process_pdfs blankOneDetect "in" "out" "all" ["lattice"] ["2024-01-05.pdf"] = .ok c1res ∧
    c1res.logs.all (fun l => l.1 != "warn") = true ∧
    (c1res.logs.map Prod.fst = ["ok", "master-warn"]) ∧
    c1res.writes.length = 1 := by
  refine ⟨rfl, by decide, by decide, by decide⟩

/-- C1 amended: if detection produced no RawTables at all, the Builder
emits a `warn` naming the document, persists nothing and skips the
document; but if RawTables were produced and the merged frame is empty
after blank-normalization and pruning, the document is not skipped: it
is logged `ok` with row count 0, an empty CSV is still persisted, and
it contributes no master rows.  In both cases processing continues with
the remaining documents. -/
theorem C1_amended (detect : Detect) (pdf_dir out_dir pages : String) (flavors : List String)
    (fname : String) :
    (read_pdf_tables detect (joinPath pdf_dir fname) pages flavors = .ok ([], none) →
      processDoc detect pdf_dir out_dir pages flavors fname =
        .ok ⟨("warn", "No tables found in " ++ fname), none, []⟩)
    ∧ (∀ (tables : List RawTable) (flv : Option String),
      read_pdf_tables detect (joinPath pdf_dir fname) pages flavors = .ok (tables, flv) →
      tables ≠ [] → (dropAllNaRows (blankNorm (mergeTables tables))).rows = [] →
      ∃ df : DF, df.rows = [] ∧
        processDoc detect pdf_dir out_dir pages flavors fname =
          .ok ⟨("ok", okMsg fname 0 flv (joinPath out_dir (csvName fname))),
               some (joinPath out_dir (csvName fname), df), []⟩)
    ∧ (∀ (rest : List String) (d : DocResult),
      processDoc detect pdf_dir out_dir pages flavors fname = .ok d →
      runDocs detect pdf_dir out_dir pages flavors (fname :: rest) =
        (runDocs detect pdf_dir out_dir pages flavors rest).map (fun ds => d :: ds)) := by
  refine ⟨?_, ?_, ?_⟩
  · intro h
    simp only [processDoc, h, ite_true]
  · intro tables flv hread hne hempty
    have hb : builtDF tables = ⟨[], []⟩ := builtDF_of_pruned_empty hempty
    simp only [processDoc, hread, if_neg hne, hb]
    cases hdv : extract_date_from_filename fname with
    | none => exact ⟨⟨[], []⟩, rfl, rfl⟩
    | some v => exact ⟨⟨["Date"], []⟩, rfl, rfl⟩
  · intro rest d h
    conv_lhs => rw [runDocs]
    rw [h]
    cases hrest : runDocs detect pdf_dir out_dir pages flavors rest <;>
      simp [hrest, Except.map]

/-- C1 witness: both amended branches at concrete inputs — the
no-tables branch on an oracle returning zero rows, and the
empty-after-pruning branch on the all-blank oracle. -/
theorem C1_amended_witness :
    (processDoc c2zeroDetect "in" "out" "all" ["lattice"] "a.pdf" =
      .ok ⟨("warn", "No tables found in " ++ "a.pdf"), none, []⟩)
    ∧ (∃ df : DF, df.rows = [] ∧
      processDoc blankOneDetect "in" "out" "all" ["lattice"] "2024-01-05.pdf" =
        .ok ⟨("ok", okMsg "2024-01-05.pdf" 0 (some "lattice")
                (joinPath "out" (csvName "2024-01-05.pdf"))),
             some (joinPath "out" (csvName "2024-01-05.pdf"), df), []⟩) := by
  constructor
  · exact (C1_amended c2zeroDetect "in" "out" "all" ["lattice"] "a.pdf").1 rfl
  · exact (C1_amended blankOneDetect "in" "out" "all" ["lattice"] "2024-01-05.pdf").2.1
      [[[" "]]] (some "lattice") rfl (by decide) (by decide)

/-! ## Claim C3: the ≥3 non-null-cell master threshold -/

/-- C3: across a whole successful run, a row is included in the master
table if and only if it is a data row of some persisted per-document
frame with at least 3 non-null cells. -/
theorem C3_master_membership (detect : Detect) (pdf_dir out_dir pages : String)
    (flavors : List String) (listing : List String) (res : RunResult) (r : Row)
    (h : process_pdfs detect pdf_dir out_dir pages flavors listing = .ok res) :
    (∃ mp rows, res.master = some (mp, rows) ∧ r ∈ rows) ↔
      (∃ w ∈ res.writes, r ∈ w.2.rows ∧ 3 ≤ countNonNull r) := by
  simp only [process_pdfs] at h
  by_cases hemp : sortStrings (listing.filter endsWithDotPdf) = []
  · rw [if_pos hemp] at h
    injection h with h2
    subst h2
    simp
  · rw [if_neg hemp] at h
    cases hrun : runDocs detect pdf_dir out_dir pages flavors
        (sortStrings (listing.filter endsWithDotPdf)) with
    | error e =>
      rw [hrun] at h
      exact Except.noConfusion h
    | ok results =>
      simp only [hrun] at h
      have hinv : ∀ d ∈ results, d.master = (match d.write with
          | some pdf => pdf.2.rows.filter qualifiesB
          | none => []) := by
        intro d hd
        obtain ⟨f, -, hf⟩ := runDocs_ok_mem detect pdf_dir out_dir pages flavors _ results hrun d hd
        exact processDoc_master_eq detect pdf_dir out_dir pages flavors f d hf
      have hkey : r ∈ results.foldr (fun d acc => d.master ++ acc) [] ↔
          (∃ w ∈ results.filterMap DocResult.write, r ∈ w.2.rows ∧ 3 ≤ countNonNull r) := by
        rw [mem_fold_master]
        constructor
        · rintro ⟨d, hd, hr⟩
          rw [hinv d hd] at hr
          cases hw : d.write with
          | none => rw [hw] at hr; simp at hr
          | some w =>
            rw [hw] at hr
            have := List.mem_filter.mp hr
            exact ⟨w, List.mem_filterMap.mpr ⟨d, hd, hw⟩, this.1,
              by simpa [qualifiesB] using this.2⟩
        · rintro ⟨w, hw, hr, hq⟩
          obtain ⟨d, hd, hdw⟩ := List.mem_filterMap.mp hw
          refine ⟨d, hd, ?_⟩
          rw [hinv d hd, hdw]
          exact List.mem_filter.mpr ⟨hr, by simpa [qualifiesB] using hq⟩
      by_cases hall : results.foldr (fun d acc => d.master ++ acc) [] = []
      · rw [if_pos hall] at h
        injection h with h2
        subst h2
        simp only []
        constructor
        · rintro ⟨mp, rows, hnone, -⟩
          exact Option.noConfusion hnone
        · intro hrhs
          have := hkey.mpr hrhs
          rw [hall] at this
          simp at this
      · rw [if_neg hall] at h
        injection h with h2
        subst h2
        simp only []
        constructor
        · rintro ⟨mp, rows, hsome, hr⟩
          simp only [Option.some.injEq, Prod.mk.injEq] at hsome
          obtain ⟨-, rfl⟩ := hsome
          exact hkey.mp hr
        · intro hrhs
          exact ⟨_, _, rfl, hkey.mpr hrhs⟩

/-- C3 witness: in the concrete run, the 3-non-null-cell row is in the
master exactly because it is a persisted row meeting the threshold. -/
theorem C3_master_membership_witness :
    (∃ mp rows, c3res.master = some (mp, rows) ∧ c3row ∈ rows) ↔
      (∃ w ∈ c3res.writes, c3row ∈ w.2.rows ∧ 3 ≤ countNonNull c3row) :=
  C3_master_membership smallDetect "in" "out" "all" ["lattice"] ["2024-01-05.pdf"] c3res c3row
    rfl

/-! ## Claim C6: columns of the persisted frame -/

theorem le_foldr_max {l : List Nat} {x : Nat} (h : x ∈ l) : x ≤ l.foldr Nat.max 0 := by
  induction l with
  | nil => simp at h
  | cons a l ih =>
    rcases List.mem_cons.mp h with rfl | h2
    · simp only [List.foldr_cons]
      exact Nat.le_max_left _ _
    · simp only [List.foldr_cons]
      exact le_trans (ih h2) (Nat.le_max_right _ _)

/-- Every row of the merged frame has exactly the merged width. -/
theorem merge_row_length {ts : List RawTable} {r : Row}
    (h : r ∈ (mergeTables ts).rows) : r.length = maxW ts := by
  simp only [mergeTables, List.mem_map] at h
  obtain ⟨r0, hr0, rfl⟩ := h
  have hle : r0.length ≤ maxW ts :=
    le_foldr_max (List.mem_map_of_mem List.length hr0)
  simp only [padTo, List.length_append, List.length_replicate, List.length_map]
  omega

/-- Every row of the cleaned frame spans exactly its columns. -/
theorem cleaned_row_length {ts : List RawTable} {r : Row}
    (h : r ∈ (cleanedDF ts).rows) : r.length = (cleanedDF ts).cols.length := by
  simp only [cleanedDF, dropAllNaCols, List.mem_map] at h ⊢
  obtain ⟨r0, -, rfl⟩ := h
  simp [List.length_map]

/-- If any row survives pruning, at least one column survives too. -/
theorem cleaned_cols_ne_nil {ts : List RawTable} (h : (cleanedDF ts).rows ≠ []) :
    (cleanedDF ts).cols ≠ [] := by
  simp only [cleanedDF, dropAllNaCols] at h ⊢
  intro hc
  apply h
  have hkeep : keepIdx (dropAllNaRows (blankNorm (mergeTables ts))) = [] := by
    by_contra hk
    exact hk (List.map_eq_nil_iff.mp hc)
  -- with no kept column, show no row can have survived row pruning
  rw [List.map_eq_nil_iff]
  by_contra hrows
  obtain ⟨r0, hr0⟩ := List.exists_mem_of_ne_nil _ hrows
  have hr0f := hr0
  simp only [dropAllNaRows, List.mem_filter] at hr0f
  obtain ⟨hr0mem, hr0data⟩ := hr0f
  -- a surviving row has a non-null cell at some index j
  simp only [rowHasData, List.any_eq_true] at hr0data
  obtain ⟨c, hc0, hcs⟩ := hr0data
  obtain ⟨j, hj, hjc⟩ := List.mem_iff_getElem.mp hc0
  -- that index is within the merged width, hence a column label exists there
  have hblen : r0.length = maxW ts := by
    have : r0 ∈ (blankNorm (mergeTables ts)).rows := hr0mem
    simp only [blankNorm, List.mem_map] at this
    obtain ⟨r1, hr1, rfl⟩ := this
    rw [List.length_map]
    exact merge_row_length hr1
  have hjin : j ∈ keepIdx (dropAllNaRows (blankNorm (mergeTables ts))) := by
    simp only [keepIdx, List.mem_filter, List.mem_range]
    constructor
    · simp only [dropAllNaRows, blankNorm, mergeTables, List.length_map, List.length_range]
      omega
    · simp only [colHasData, List.any_eq_true]
      refine ⟨r0, hr0, ?_⟩
      rw [List.getD_eq_getElem _ _ (by omega : j < r0.length), hjc, hcs]
  rw [hkeep] at hjin
  simp at hjin

/-- Header promotion either leaves the frame alone or replaces the
columns by the first row's labels and drops that row. -/
theorem promoteHeader_spec (df : DF) :
    promoteHeader df = df ∨
    ∃ r0 rest, df.rows = r0 :: rest ∧
      promoteHeader df = ⟨r0.map promoteCellLabel, rest⟩ := by
  unfold promoteHeader
  split
  · exact Or.inl rfl
  · rename_i r0 rest heq
    split
    · exact Or.inr ⟨r0, rest, heq, rfl⟩
    · exact Or.inl rfl

/-- The built frame has a column whenever it has a row. -/
theorem builtDF_cols_ne_nil {ts : List RawTable} (h : (builtDF ts).rows ≠ []) :
    (builtDF ts).cols ≠ [] := by
  have hb : builtDF ts = normCols (promoteHeader (cleanedDF ts)) := rfl
  rcases promoteHeader_spec (cleanedDF ts) with hps | ⟨r0, rest, hrows, hps⟩
  · rw [hb, hps] at h ⊢
    simp only [normCols] at h ⊢
    rw [ne_eq, List.map_eq_nil_iff]
    exact cleaned_cols_ne_nil h
  · rw [hb, hps] at h ⊢
    simp only [normCols] at h ⊢
    rw [ne_eq, List.map_eq_nil_iff, List.map_eq_nil_iff]
    have hlen : r0.length = (cleanedDF ts).cols.length :=
      cleaned_row_length (by rw [hrows]; exact List.mem_cons_self _ _)
    have hcne : (cleanedDF ts).cols ≠ [] := cleaned_cols_ne_nil (by rw [hrows]; simp)
    intro h0
    apply hcne
    apply List.eq_nil_of_length_eq_zero
    rw [← hlen, h0]
    rfl

/-- C6 counterexample: a document whose only table is all-blank and
whose filename yields no date is persisted as a CSV with zero columns,
contradicting the claim that a NormalizedTable is never persisted with
zero columns after cleaning. -/
theorem C6_counterexample :
    process_pdfs blankOneDetect "in" "out" "all" ["lattice"] ["file.pdf"] = .ok c6res ∧
    c6res.writes.map (fun w => w.2.cols) = [[]] ∧ c6res.writes.length = 1 := by
  exact ⟨rfl, rfl, rfl⟩

/-- C6 amended: a persisted per-document frame can have zero columns
only when it also has zero rows (an entirely blank merged table with no
resolved date); whenever the persisted frame retains at least one row,
it has at least one column. -/
theorem C6_amended (detect : Detect) (pdf_dir out_dir pages : String) (flavors : List String)
    (fname : String) (d : DocResult) (p : String) (df : DF)
    (h : processDoc detect pdf_dir out_dir pages flavors fname = .ok d)
    (hw : d.write = some (p, df)) (hr : df.rows ≠ []) : df.cols ≠ [] := by
  unfold processDoc at h
  cases hread : read_pdf_tables detect (joinPath pdf_dir fname) pages flavors with
  | error e =>
    simp only [hread] at h
    injection h with h2
    subst h2
    simp at hw
  | ok tf =>
    obtain ⟨tables, flv⟩ := tf
    simp only [hread] at h
    by_cases ht : tables = []
    · rw [if_pos ht] at h
      injection h with h2
      subst h2
      simp at hw
    · rw [if_neg ht] at h
      cases hi : insertDate (extract_date_from_filename fname) (builtDF tables) with
      | error e =>
        simp only [hi] at h
        exact Except.noConfusion h
      | ok df1 =>
        simp only [hi] at h
        injection h with h2
        subst h2
        simp only [Option.some.injEq, Prod.mk.injEq] at hw
        obtain ⟨-, rfl⟩ := hw
        cases hdv : extract_date_from_filename fname with
        | none =>
          rw [hdv] at hi
          simp only [insertDate] at hi
          injection hi with h3
          subst h3
          exact builtDF_cols_ne_nil hr
        | some v =>
          rw [hdv] at hi
          simp only [insertDate] at hi
          split at hi
          · exact Except.noConfusion hi
          · injection hi with h3
            subst h3
            simp

/-- C6 witness: the amended invariant at a concrete successful
document whose persisted frame has one row. -/
theorem C6_amended_witness : cDoc2.write.getD ("", ⟨[], []⟩) |>.2.cols ≠ [] := by
  have := C6_amended twoCellDetect "in" "out" "all" ["lattice"] "file.pdf" cDoc2
    (cDoc2.write.getD ("", ⟨[], []⟩)).1 (cDoc2.write.getD ("", ⟨[], []⟩)).2 rfl (by decide)
    (by decide)
  exact this

/-! ## Claim C7: the Date column -/

/-- C7: for a document whose filename resolved to a date, the persisted
frame has `Date` as its first column with the date value (a calendar
date, not a string) replicated on every row; for a document with no
resolved date, the persisted frame is exactly the built frame, with no
`Date` column added. -/
theorem C7_date_stamp (detect : Detect) (pdf_dir out_dir pages : String)
    (flavors : List String) (fname : String) (d : DocResult) (p : String) (df : DF)
    (h : processDoc detect pdf_dir out_dir pages flavors fname = .ok d)
    (hw : d.write = some (p, df)) :
    (∀ v, extract_date_from_filename fname = some v →
      df.cols.head? = some "Date" ∧ ∀ r ∈ df.rows, r.head? = some (some (Cell.date v)))
    ∧ (extract_date_from_filename fname = none →
      ∃ (tables : List RawTable) (flv : Option String),
        read_pdf_tables detect (joinPath pdf_dir fname) pages flavors = .ok (tables, flv) ∧
        tables ≠ [] ∧ df = builtDF tables) := by
  unfold processDoc at h
  cases hread : read_pdf_tables detect (joinPath pdf_dir fname) pages flavors with
  | error e =>
    simp only [hread] at h
    injection h with h2
    subst h2
    simp at hw
  | ok tf =>
    obtain ⟨tables, flv⟩ := tf
    simp only [hread] at h
    by_cases ht : tables = []
    · rw [if_pos ht] at h
      injection h with h2
      subst h2
      simp at hw
    · rw [if_neg ht] at h
      cases hi : insertDate (extract_date_from_filename fname) (builtDF tables) with
      | error e =>
        simp only [hi] at h
        exact Except.noConfusion h
      | ok df1 =>
        simp only [hi] at h
        injection h with h2
        subst h2
        simp only [Option.some.injEq, Prod.mk.injEq] at hw
        obtain ⟨-, rfl⟩ := hw
        constructor
        · intro v hv
          rw [hv] at hi
          simp only [insertDate] at hi
          split at hi
          · exact Except.noConfusion hi
          · injection hi with h3
            subst h3
            constructor
            · rfl
            · intro r hr
              simp only [List.mem_map] at hr
              obtain ⟨r0, -, rfl⟩ := hr
              rfl
        · intro hv
          rw [hv] at hi
          simp only [insertDate] at hi
          injection hi with h3
          exact ⟨tables, flv, rfl, ht, h3.symm⟩

/-- C7 witness: both branches at concrete documents — a dated document
gets `Date` first with the date on each row; an undated one persists
the built frame unchanged. -/
theorem C7_date_stamp_witness :
    ((cDoc1.write.getD ("", ⟨[], []⟩)).2.cols.head? = some "Date" ∧
      ∀ r ∈ (cDoc1.write.getD ("", ⟨[], []⟩)).2.rows,
        r.head? = some (some (Cell.date ⟨2024, 1, 5⟩)))
    ∧ (∃ (tables : List RawTable) (flv : Option String),
        read_pdf_tables twoCellDetect (joinPath "in" "file.pdf") "all" ["lattice"] =
          .ok (tables, flv) ∧
        tables ≠ [] ∧ (cDoc2.write.getD ("", ⟨[], []⟩)).2 = builtDF tables) := by
  constructor
  · exact (C7_date_stamp twoCellDetect "in" "out" "all" ["lattice"] "2024-01-05.pdf" cDoc1
      (cDoc1.write.getD ("", ⟨[], []⟩)).1 (cDoc1.write.getD ("", ⟨[], []⟩)).2
      rfl (by decide)).1 ⟨2024, 1, 5⟩ (by decide)
  · exact (C7_date_stamp twoCellDetect "in" "out" "all" ["lattice"] "file.pdf" cDoc2
      (cDoc2.write.getD ("", ⟨[], []⟩)).1 (cDoc2.write.getD ("", ⟨[], []⟩)).2
      rfl (by decide)).2 (by decide)

/-! ## Claim C10: the Date cell counts toward the ≥3 threshold -/

theorem countNonNull_cons_some (c : Cell) (r : Row) :
    countNonNull (some c :: r) = countNonNull r + 1 := by
  simp [countNonNull, List.filter_cons]

/-- C10: the qualification mask is evaluated on the frame after `Date`
insertion, so the `Date` cell counts toward the ≥3 threshold: a data
row with exactly 2 non-null detected cells reaches the master in a
document whose filename resolved to a date, while the same row in a
document with no resolved date does not. -/
theorem C10_threshold_after_date (detect : Detect) (pdf_dir out_dir pages : String)
    (flavors : List String) (fname1 fname2 : String) (v : YMD)
    (d1 d2 : DocResult) (p1 p2 : String) (df1 df2 : DF) (r : Row)
    (hv1 : extract_date_from_filename fname1 = some v)
    (hv2 : extract_date_from_filename fname2 = none)
    (h1 : processDoc detect pdf_dir out_dir pages flavors fname1 = .ok d1)
    (hw1 : d1.write = some (p1, df1))
    (h2 : processDoc detect pdf_dir out_dir pages flavors fname2 = .ok d2)
    (hw2 : d2.write = some (p2, df2))
    (hc : countNonNull r = 2) :
    ((some (Cell.date v) :: r) ∈ df1.rows → (some (Cell.date v) :: r) ∈ d1.master)
    ∧ (r ∈ df2.rows → r ∉ d2.master) := by
  have hm1 := processDoc_master_eq detect pdf_dir out_dir pages flavors fname1 d1 h1
  have hm2 := processDoc_master_eq detect pdf_dir out_dir pages flavors fname2 d2 h2
  rw [hw1] at hm1
  rw [hw2] at hm2
  constructor
  · intro hrow
    rw [hm1]
    refine List.mem_filter.mpr ⟨hrow, ?_⟩
    simp only [qualifiesB, countNonNull_cons_some, hc, decide_eq_true_eq]
    omega
  · intro hrow hmem
    rw [hm2] at hmem
    have := (List.mem_filter.mp hmem).2
    simp only [qualifiesB, hc, decide_eq_true_eq] at this
    omega

/-- C10 witness: the very same two-non-null-cell row reaches the
master in the dated document and is rejected in the undated one. -/
theorem C10_threshold_after_date_witness :
    ((some (Cell.date ⟨2024, 1, 5⟩) :: twoCellRow) ∈ (cDoc1.write.getD ("", ⟨[], []⟩)).2.rows →
      (some (Cell.date ⟨2024, 1, 5⟩) :: twoCellRow) ∈ cDoc1.master)
    ∧ (twoCellRow ∈ (cDoc2.write.getD ("", ⟨[], []⟩)).2.rows → twoCellRow ∉ cDoc2.master) := by
  exact C10_threshold_after_date twoCellDetect "in" "out" "all" ["lattice"]
    "2024-01-05.pdf" "file.pdf" ⟨2024, 1, 5⟩ cDoc1 cDoc2
    (cDoc1.write.getD ("", ⟨[], []⟩)).1 (cDoc2.write.getD ("", ⟨[], []⟩)).1
    (cDoc1.write.getD ("", ⟨[], []⟩)).2 (cDoc2.write.getD ("", ⟨[], []⟩)).2 twoCellRow
    (by decide) (by decide) rfl (by decide) rfl (by decide) (by decide)

/-! ## Claim C8: per-document CSV naming -/

/-- C8 counterexample: `REPORT.PDF` passes the case-insensitive input
filter and is processed successfully, but the case-sensitive
`fname.replace(".pdf", ".csv")` leaves its name unchanged, so the
written file is `out/REPORT.PDF` — not the source name with its
extension replaced by `.csv` (`out/REPORT.csv`). -/
theorem C8_counterexample :
    process_pdfs smallDetect "in" "out" "all" ["lattice"] ["REPORT.PDF"] = .ok c8res ∧
    c8res.writes.map Prod.fst = ["out/REPORT.PDF"] ∧
    strOf (stemChars (basenameChars "REPORT.PDF".data)) ++ ".csv" = "REPORT.csv" ∧
    joinPath "out" ("REPORT" ++ ".csv") ≠ "out/REPORT.PDF" := by
  exact ⟨rfl, rfl, rfl, by decide⟩

/-- C8 amended: the per-document CSV write events of a successful run
are exactly one per successfully processed document, in order, and each
is named by replacing every occurrence of the literal lowercase
substring `.pdf` in the filename with `.csv` (so a file whose extension
is not exactly lowercase `.pdf` keeps its original name). -/
theorem C8_csv_naming (detect : Detect) (pdf_dir out_dir pages : String)
    (flavors : List String) (listing : List String) (res : RunResult)
    (h : process_pdfs detect pdf_dir out_dir pages flavors listing = .ok res) :
    res.writes = (sortStrings (listing.filter endsWithDotPdf)).filterMap
        (fun f => (processDoc detect pdf_dir out_dir pages flavors f).toOption.bind
          DocResult.write)
    ∧ ∀ (f : String) (d : DocResult) (q : String × DF),
      processDoc detect pdf_dir out_dir pages flavors f = .ok d → d.write = some q →
      q.1 = joinPath out_dir (csvName f) := by
  constructor
  · simp only [process_pdfs] at h
    by_cases hemp : sortStrings (listing.filter endsWithDotPdf) = []
    · rw [if_pos hemp] at h
      injection h with h2
      subst h2
      rw [hemp]
      rfl
    · rw [if_neg hemp] at h
      cases hrun : runDocs detect pdf_dir out_dir pages flavors
          (sortStrings (listing.filter endsWithDotPdf)) with
      | error e =>
        rw [hrun] at h
        exact Except.noConfusion h
      | ok results =>
        simp only [hrun] at h
        have hfm := runDocs_filterMap_writes detect pdf_dir out_dir pages flavors _ results hrun
        by_cases hall : results.foldr (fun d acc => d.master ++ acc) [] = []
        · rw [if_pos hall] at h
          injection h with h2
          subst h2
          exact hfm
        · rw [if_neg hall] at h
          injection h with h2
          subst h2
          exact hfm
  · intro f d q hp hq
    unfold processDoc at hp
    cases hread : read_pdf_tables detect (joinPath pdf_dir f) pages flavors with
    | error e =>
      simp only [hread] at hp
      injection hp with h2
      subst h2
      simp at hq
    | ok tf =>
      obtain ⟨tables, flv⟩ := tf
      simp only [hread] at hp
      by_cases ht : tables = []
      · rw [if_pos ht] at hp
        injection hp with h2
        subst h2
        simp at hq
      · rw [if_neg ht] at hp
        cases hi : insertDate (extract_date_from_filename f) (builtDF tables) with
        | error e =>
          simp only [hi] at hp
          exact Except.noConfusion hp
        | ok df1 =>
          simp only [hi] at hp
          injection hp with h2
          subst h2
          simp only [Option.some.injEq] at hq
          rw [← hq]

/-- C8 witness: the amended description at the concrete `REPORT.PDF`
run (which also shows the case-sensitivity of the rename). -/
theorem C8_csv_naming_witness :
    c8res.writes = (sortStrings ((["REPORT.PDF"]).filter endsWithDotPdf)).filterMap
        (fun f => (processDoc smallDetect "in" "out" "all" ["lattice"] f).toOption.bind
          DocResult.write)
    ∧ ∀ (f : String) (d : DocResult) (q : String × DF),
      processDoc smallDetect "in" "out" "all" ["lattice"] f = .ok d → d.write = some q →
      q.1 = joinPath "out" (csvName f) :=
  C8_csv_naming smallDetect "in" "out" "all" ["lattice"] ["REPORT.PDF"] c8res rfl

/-! ## Claim C5: idempotence of `normalize` -/

theorem bool_and_split {a b : Bool} (h : (a && b) = true) : a = true ∧ b = true := by
  constructor <;> simp_all

theorem canonAux_tail {x : Char} {t : List Char} (h : canonAux (x :: t) = true) :
    canonAux t = true := by
  cases t with
  | nil => rfl
  | cons b r =>
    simp only [canonAux] at h
    split at h <;> exact (bool_and_split h).2

theorem canonAux_suffix {x y : List Char} (h : canonAux (x ++ y) = true) :
    canonAux y = true := by
  induction x with
  | nil => exact h
  | cons a x' ih => exact ih (canonAux_tail h)

theorem canonAux_getLast {l : List Char} (h : canonAux l = true) : lastNotWS l := by
  induction l with
  | nil => intro c hc; simp at hc
  | cons a t ih =>
    cases t with
    | nil =>
      intro c hc
      simp only [List.getLast?_singleton, Option.mem_def, Option.some.injEq] at hc
      subst hc
      simpa [canonAux] using h
    | cons b r =>
      intro c hc
      rw [List.getLast?_cons_cons] at hc
      exact ih (canonAux_tail h) c hc

theorem ws_ne_space {a : Char} (h : pyIsSpace a = false) : a ≠ ' ' := by
  intro h2
  rw [h2] at h
  exact absurd h (by decide)

theorem canonAux_append_word {w t : List Char} (hw : ∀ c ∈ w, pyIsSpace c = false)
    (ht : canonAux t = true) : canonAux (w ++ t) = true := by
  induction w with
  | nil => simpa
  | cons a w' ih =>
    have ha : pyIsSpace a = false := hw a (List.mem_cons_self _ _)
    have hrest : canonAux (w' ++ t) = true := ih (fun c hc => hw c (List.mem_cons_of_mem _ hc))
    show canonAux (a :: (w' ++ t)) = true
    cases hwt : w' ++ t with
    | nil => simp [canonAux, ha]
    | cons x rest =>
      have h2 : canonAux (x :: rest) = true := hwt ▸ hrest
      simp [canonAux, if_neg (ws_ne_space ha), ha, h2]

theorem dropPref_eq_append {p : List Char} :
    ∀ {s rest : List Char}, dropPref p s = some rest → s = p ++ rest := by
  induction p with
  | nil =>
    intro s rest h
    simpa [dropPref] using h
  | cons a ps ih =>
    intro s rest h
    cases s with
    | nil => exact Option.noConfusion h
    | cons c cs =>
      simp only [dropPref] at h
      split at h
      · rename_i hac
        rw [List.cons_append, ← ih h, hac]
      · exact Option.noConfusion h

theorem replaceFuel_ne_nil {pat repl : List Char} (hrep : repl ≠ []) :
    ∀ (fuel : Nat) (s : List Char), s ≠ [] → replaceFuel pat repl fuel s ≠ [] := by
  intro fuel s hs
  cases s with
  | nil => exact absurd rfl hs
  | cons c r =>
    cases fuel with
    | zero => simp [replaceFuel]
    | succ f =>
      simp only [replaceFuel]
      cases hdp : dropPref pat (c :: r) with
      | some rest =>
        simp only [hdp]
        intro hh
        exact hrep (List.append_eq_nil.mp hh).1
      | none =>
        simp only [hdp]
        simp

theorem replaceFuel_headNotWS {pat repl : List Char} (hrep : ∀ c ∈ repl, pyIsSpace c = false)
    (hrepne : repl ≠ []) :
    ∀ (fuel : Nat) (s : List Char), headNotWS s = true →
      headNotWS (replaceFuel pat repl fuel s) = true := by
  intro fuel s hs
  cases s with
  | nil => cases fuel <;> exact hs
  | cons c r =>
    cases fuel with
    | zero => exact hs
    | succ f =>
      simp only [replaceFuel]
      cases hdp : dropPref pat (c :: r) with
      | some rest =>
        simp only [hdp]
        cases repl with
        | nil => exact absurd rfl hrepne
        | cons rc rr =>
          simpa [headNotWS] using hrep rc (List.mem_cons_self _ _)
      | none =>
        simp only [hdp]
        simpa [headNotWS] using hs

theorem canonAux_replaceFuel {pat repl : List Char} (hrep : ∀ c ∈ repl, pyIsSpace c = false)
    (hrepne : repl ≠ []) :
    ∀ (fuel : Nat) (s : List Char), canonAux s = true →
      canonAux (replaceFuel pat repl fuel s) = true := by
  intro fuel
  induction fuel with
  | zero =>
    intro s hs
    cases s with
    | nil => exact hs
    | cons c r => exact hs
  | succ f ih =>
    intro s hs
    cases s with
    | nil => exact hs
    | cons c r =>
      simp only [replaceFuel]
      cases hdp : dropPref pat (c :: r) with
      | some rest =>
        have hsuffix : canonAux rest = true := canonAux_suffix (dropPref_eq_append hdp ▸ hs)
        exact canonAux_append_word hrep (ih rest hsuffix)
      | none =>
        have htail : canonAux r = true := canonAux_tail hs
        have hx := ih r htail
        by_cases hc : pyIsSpace c = true
        · -- a leading space: the tail is nonempty with non-space head, both preserved
          have hcsp : c = ' ' := by
            cases r with
            | nil => simpa [canonAux, hc] using hs
            | cons b rb =>
              simp only [canonAux] at hs
              split at hs
              · assumption
              · obtain ⟨h1, -⟩ := bool_and_split hs
                rw [hc] at h1
                exact absurd h1 (by decide)
          cases r with
          | nil => exact absurd (hcsp ▸ hs) (by decide)
          | cons b rb =>
            have hrne : replaceFuel pat repl f (b :: rb) ≠ [] :=
              replaceFuel_ne_nil hrepne f _ (by simp)
            have hhead : headNotWS (replaceFuel pat repl f (b :: rb)) = true := by
              apply replaceFuel_headNotWS hrep hrepne
              have : (!pyIsSpace b) = true := by
                simp only [canonAux, if_pos hcsp] at hs
                exact (bool_and_split hs).1
              simpa [headNotWS] using this
            cases hX : replaceFuel pat repl f (b :: rb) with
            | nil => exact absurd hX hrne
            | cons x xs =>
              rw [hX] at hx hhead
              simp only [headNotWS] at hhead
              simp [canonAux, hcsp, hhead, hx]
        · -- a non-space head is kept, and the tail stays canonical
          have hcf : pyIsSpace c = false := by simpa using hc
          cases hX : replaceFuel pat repl f r with
          | nil => simp [canonAux, hcf]
          | cons x xs =>
            rw [hX] at hx
            simp [canonAux, if_neg (ws_ne_space hcf), hcf, hx]

theorem containsTok_replaceFuel_id {pat repl : List Char} :
    ∀ (fuel : Nat) (s : List Char), containsTok pat s = false →
      replaceFuel pat repl fuel s = s := by
  intro fuel
  induction fuel with
  | zero =>
    intro s hs
    cases s with
    | nil => rfl
    | cons c r => rfl
  | succ f ih =>
    intro s hs
    cases s with
    | nil => rfl
    | cons c r =>
      simp only [containsTok, Bool.or_eq_false_iff] at hs
      obtain ⟨h1, h2⟩ := hs
      simp only [replaceFuel]
      cases hdp : dropPref pat (c :: r) with
      | some rest =>
        rw [hdp] at h1
        simp at h1
      | none =>
        rw [ih r h2]

theorem headNotWS_dropWhile (l : List Char) :
    headNotWS (l.dropWhile pyIsSpace) = true := by
  induction l with
  | nil => rfl
  | cons c r ih =>
    by_cases hc : pyIsSpace c = true
    · rw [List.dropWhile_cons_of_pos hc]
      exact ih
    · rw [List.dropWhile_cons_of_neg hc]
      simpa [headNotWS] using hc

theorem dropWhile_getLast? {p : Char → Bool} :
    ∀ l : List Char, l.dropWhile p ≠ [] → (l.dropWhile p).getLast? = l.getLast? := by
  intro l
  induction l with
  | nil => intro h; exact absurd rfl h
  | cons c r ih =>
    intro h
    by_cases hc : p c = true
    · rw [List.dropWhile_cons_of_pos hc] at h ⊢
      cases hr : r with
      | nil => rw [hr] at h; simp at h
      | cons b rb =>
        rw [List.getLast?_cons_cons, ← hr]
        exact ih h
    · rw [List.dropWhile_cons_of_neg hc]

/-- After `strip`, the first character is not whitespace. -/
theorem headNotWS_pyStrip (l : List Char) : headNotWS (pyStrip l) = true := by
  unfold pyStrip
  cases hX : (stripL l).reverse.dropWhile pyIsSpace with
  | nil => rfl
  | cons x xs =>
    have hne : (stripL l).reverse.dropWhile pyIsSpace ≠ [] := by rw [hX]; simp
    have hlast := dropWhile_getLast? (p := pyIsSpace) (stripL l).reverse hne
    rw [List.getLast?_reverse] at hlast
    -- head of the final reverse is the last of the dropWhile result
    have hhead : (x :: xs).getLast? = (stripL l).head? := hX ▸ hlast
    cases hh : (x :: xs).getLast? with
    | none => simp at hh
    | some c =>
      have hcl : (stripL l).head? = some c := by rw [← hhead, hh]
      have : pyIsSpace c = false := by
        have hsl := headNotWS_dropWhile l
        unfold stripL at hcl
        cases hd : l.dropWhile pyIsSpace with
        | nil => rw [hd] at hcl; simp at hcl
        | cons u us =>
          rw [hd] at hcl
          injection hcl with h2
          subst h2
          rw [hd] at hsl
          simpa [headNotWS] using hsl
      have hrev : headNotWS (x :: xs).reverse = true := by
        cases hrx : (x :: xs).reverse with
        | nil => rfl
        | cons y ys =>
          have : (x :: xs).getLast? = some y := by
            rw [← List.head?_reverse, hrx]
            rfl
          rw [hh] at this
          injection this with h3
          simp only [headNotWS]
          rw [← h3]
          simpa using ‹pyIsSpace c = false›
      exact hrev

/-- After `strip`, the last character is not whitespace. -/
theorem lastNotWS_pyStrip (l : List Char) : lastNotWS (pyStrip l) := by
  unfold pyStrip
  intro c hc
  rw [List.getLast?_reverse] at hc
  have hne : (stripL l).reverse.dropWhile pyIsSpace ≠ [] := by
    intro h0
    rw [h0] at hc
    simp at hc
  have := headNotWS_dropWhile (stripL l).reverse
  cases hd : (stripL l).reverse.dropWhile pyIsSpace with
  | nil => exact absurd hd hne
  | cons u us =>
    rw [hd] at hc this
    simp only [List.head?_cons, Option.mem_def, Option.some.injEq] at hc
    subst hc
    simpa [headNotWS] using this

theorem collapseWS_ne_nil : ∀ {t : List Char}, t ≠ [] → collapseWS t ≠ [] := by
  intro t
  induction t with
  | nil => intro h; exact absurd rfl h
  | cons a r ih =>
    intro h
    cases r with
    | nil =>
      simp only [collapseWS]
      split <;> simp
    | cons b rb =>
      simp only [collapseWS]
      by_cases ha : pyIsSpace a = true
      · rw [if_pos ha]
        by_cases hb : pyIsSpace b = true
        · rw [if_pos hb]
          exact ih (by simp)
        · rw [if_neg hb]
          simp
      · rw [if_neg ha]
        simp

theorem headNotWS_collapseWS {t : List Char} (h : headNotWS t = true) :
    headNotWS (collapseWS t) = true := by
  cases t with
  | nil => rfl
  | cons a r =>
    have ha : pyIsSpace a = false := by simpa [headNotWS] using h
    cases r with
    | nil => simp [collapseWS, ha, headNotWS]
    | cons b rb => simp [collapseWS, ha, headNotWS]

/-- Collapsing produces interior-canonical whitespace as long as the
input does not end in whitespace. -/
theorem canonAux_collapseWS : ∀ {t : List Char}, lastNotWS t → canonAux (collapseWS t) = true := by
  intro t
  induction t with
  | nil => intro h; rfl
  | cons a r ih =>
    intro hlast
    cases r with
    | nil =>
      have ha : pyIsSpace a = false := by
        have := hlast a (by simp)
        exact this
      simp [collapseWS, ha, canonAux]
    | cons b rb =>
      have hlast2 : lastNotWS (b :: rb) := by
        intro c hc
        exact hlast c (by rwa [List.getLast?_cons_cons])
      have hrec := ih hlast2
      simp only [collapseWS]
      by_cases ha : pyIsSpace a = true
      · rw [if_pos ha]
        by_cases hb : pyIsSpace b = true
        · rw [if_pos hb]
          exact hrec
        · rw [if_neg hb]
          have hbf : pyIsSpace b = false := by simpa using hb
          have hhead : headNotWS (collapseWS (b :: rb)) = true :=
            headNotWS_collapseWS (by simpa [headNotWS] using hbf)
          have hne : collapseWS (b :: rb) ≠ [] := collapseWS_ne_nil (by simp)
          cases hX : collapseWS (b :: rb) with
          | nil => exact absurd hX hne
          | cons x xs =>
            rw [hX] at hrec hhead
            simp only [headNotWS] at hhead
            simp [canonAux, hhead, hrec]
      · rw [if_neg ha]
        have haf : pyIsSpace a = false := by simpa using ha
        cases hX : collapseWS (b :: rb) with
        | nil => simp [canonAux, haf]
        | cons x xs =>
          rw [hX] at hrec
          simp [canonAux, if_neg (ws_ne_space haf), haf, hrec]

/-- A canonical list is unchanged by `strip`. -/
theorem pyStrip_of_canon {l : List Char} (hh : headNotWS l = true) (hl : lastNotWS l) :
    pyStrip l = l := by
  unfold pyStrip stripL
  have h1 : l.dropWhile pyIsSpace = l := by
    cases l with
    | nil => rfl
    | cons c r =>
      have : pyIsSpace c = false := by simpa [headNotWS] using hh
      rw [List.dropWhile_cons_of_neg (by simp [this])]
  rw [h1]
  have h2 : l.reverse.dropWhile pyIsSpace = l.reverse := by
    cases hrev : l.reverse with
    | nil => rfl
    | cons c r =>
      have hcl : l.getLast? = some c := by
        rw [← List.head?_reverse, hrev]
        rfl
      have : pyIsSpace c = false := hl c hcl
      rw [List.dropWhile_cons_of_neg (by simp [this])]
  rw [h2, List.reverse_reverse]

/-- A canonical list is unchanged by whitespace collapsing. -/
theorem collapseWS_of_canon : ∀ {l : List Char}, canonAux l = true → collapseWS l = l := by
  intro l
  induction l with
  | nil => intro h; rfl
  | cons a r ih =>
    intro h
    cases r with
    | nil =>
      have : (!pyIsSpace a) = true := by simpa [canonAux] using h
      simp only [collapseWS]
      rw [if_neg (by simpa using this)]
    | cons b rb =>
      simp only [canonAux] at h
      by_cases ha : a = ' '
      · rw [if_pos ha] at h
        obtain ⟨hb, hrec⟩ := bool_and_split h
        simp only [collapseWS]
        rw [if_pos (by rw [ha]; simp [pyIsSpace]), if_neg (by simpa using hb), ih hrec, ha]
      · rw [if_neg ha] at h
        obtain ⟨haf, hrec⟩ := bool_and_split h
        simp only [collapseWS]
        rw [if_neg (by simpa using haf), ih hrec]

/-- C5 counterexample: `normalize` is not idempotent — the `Last Rate`
→ `Last` replacement can reconstruct the token `Last Rate`, which a
second application then rewrites again. -/
theorem C5_counterexample :
    normalize "Last Rate Rate" = "Last Rate" ∧ normalize "Last Rate" = "Last" ∧
    normalize (normalize "Last Rate Rate") ≠ normalize "Last Rate Rate" := by
  refine ⟨rfl, rfl, by decide⟩

/-- C5 amended: `normalize` is idempotent on every label whose
normalized form no longer contains any of the three replacement source
tokens `Prv.`, `Last Rate`, `Open Rate` (the counterexample shows the
unrestricted claim fails exactly when a source token survives, as for
`Last Rate Rate`). -/
theorem C5_amended (x : String)
    (h1 : containsTok "Prv.".data (normalize x).data = false)
    (h2 : containsTok "Last Rate".data (normalize x).data = false)
    (h3 : containsTok "Open Rate".data (normalize x).data = false) :
    normalize (normalize x) = normalize x := by
  -- the normalized form is whitespace-canonical
  have c0 : canonAux (collapseWS (pyStrip x.data)) = true :=
    canonAux_collapseWS (lastNotWS_pyStrip x.data)
  have h0 : headNotWS (collapseWS (pyStrip x.data)) = true :=
    headNotWS_collapseWS (headNotWS_pyStrip x.data)
  have hprev : ∀ c ∈ "Prev".data, pyIsSpace c = false := by decide
  have hlastr : ∀ c ∈ "Last".data, pyIsSpace c = false := by decide
  have hopenr : ∀ c ∈ "Open".data, pyIsSpace c = false := by decide
  have c1 : canonAux (replaceAll "Prv.".data "Prev".data (collapseWS (pyStrip x.data))) = true :=
    canonAux_replaceFuel hprev (by decide) _ _ c0
  have hh1 : headNotWS (replaceAll "Prv.".data "Prev".data
      (collapseWS (pyStrip x.data))) = true :=
    replaceFuel_headNotWS hprev (by decide) _ _ h0
  have c2 : canonAux (replaceAll "Last Rate".data "Last".data
      (replaceAll "Prv.".data "Prev".data (collapseWS (pyStrip x.data)))) = true :=
    canonAux_replaceFuel hlastr (by decide) _ _ c1
  have hh2 : headNotWS (replaceAll "Last Rate".data "Last".data
      (replaceAll "Prv.".data "Prev".data (collapseWS (pyStrip x.data)))) = true :=
    replaceFuel_headNotWS hlastr (by decide) _ _ hh1
  have c3 : canonAux (normalize x).data = true :=
    canonAux_replaceFuel hopenr (by decide) _ _ c2
  have hh3 : headNotWS (normalize x).data = true :=
    replaceFuel_headNotWS hopenr (by decide) _ _ hh2
  -- the second pass is the identity
  show strOf (replaceAll "Open Rate".data "Open".data
    (replaceAll "Last Rate".data "Last".data
      (replaceAll "Prv.".data "Prev".data
        (collapseWS (pyStrip (normalize x).data))))) = normalize x
  rw [pyStrip_of_canon hh3 (canonAux_getLast c3), collapseWS_of_canon c3]
  unfold replaceAll
  rw [containsTok_replaceFuel_id _ _ h1, containsTok_replaceFuel_id _ _ h2,
    containsTok_replaceFuel_id _ _ h3]
  rfl

/-- C5 witness: idempotence under the amended side conditions at a
concrete label exercising strip, collapse and a replacement. -/
theorem C5_amended_witness :
    normalize (normalize " Prv.Rate  y") = normalize " Prv.Rate  y" :=
  C5_amended " Prv.Rate  y" (by decide) (by decide) (by decide)

/-! ## Claim C4: the Filename Date Resolver -/

theorem digitCh_toNat {n : Nat} (h : n < 10) : (digitCh n).toNat = 48 + n := by
  interval_cases n <;> decide

theorem digitCh_isDigit {n : Nat} (h : n < 10) : isDigitCh (digitCh n) = true := by
  interval_cases n <;> decide

theorem digitVal_digitCh {n : Nat} (h : n < 10) : digitVal (digitCh n) = n := by
  unfold digitVal
  rw [digitCh_toNat h]
  omega

theorem digit_eq_digitCh {c : Char} (h48 : 48 ≤ c.toNat) (h57 : c.toNat ≤ 57) :
    digitCh (c.toNat - 48) = c := by
  have harg : 48 + (c.toNat - 48) = c.toNat := by omega
  unfold digitCh
  rw [harg]
  exact Char.ofNat_toNat c

theorem isDigitCh_bounds {c : Char} (h : isDigitCh c = true) :
    48 ≤ c.toNat ∧ c.toNat ≤ 57 := by
  simpa [isDigitCh] using h

/-- Soundness of the `%Y` parser: four digits rendering the value. -/
theorem parseY_sound : ∀ {s r : List Char} {y : Nat}, parseY s = some (y, r) →
    s = pad4 y ++ r ∧ y ≤ 9999 := by
  intro s r y h
  match s with
  | [] => exact Option.noConfusion h
  | [_] => exact Option.noConfusion h
  | [_, _] => exact Option.noConfusion h
  | [_, _, _] => exact Option.noConfusion h
  | a :: b :: c :: d :: s5 =>
    simp only [parseY] at h
    split at h
    · rename_i hcond
      obtain ⟨ha, hb, hc, hd⟩ := hcond
      obtain ⟨ha1, ha2⟩ := isDigitCh_bounds ha
      obtain ⟨hb1, hb2⟩ := isDigitCh_bounds hb
      obtain ⟨hc1, hc2⟩ := isDigitCh_bounds hc
      obtain ⟨hd1, hd2⟩ := isDigitCh_bounds hd
      simp only [Option.some.injEq, Prod.mk.injEq] at h
      obtain ⟨hy, hr⟩ := h
      subst hr
      constructor
      · simp only [pad4, List.cons_append, List.nil_append, List.cons.injEq]
        refine ⟨?_, ?_, ?_, ?_, by trivial⟩
        · have : y / 1000 % 10 = a.toNat - 48 := by
            unfold digitVal at hy
            omega
          rw [this, digit_eq_digitCh ha1 ha2]
        · have : y / 100 % 10 = b.toNat - 48 := by
            unfold digitVal at hy
            omega
          rw [this, digit_eq_digitCh hb1 hb2]
        · have : y / 10 % 10 = c.toNat - 48 := by
            unfold digitVal at hy
            omega
          rw [this, digit_eq_digitCh hc1 hc2]
        · have : y % 10 = d.toNat - 48 := by
            unfold digitVal at hy
            omega
          rw [this, digit_eq_digitCh hd1 hd2]
      · unfold digitVal at hy
        omega
    · exact Option.noConfusion h

/-- Completeness of the `%Y` parser on a padded rendering. -/
theorem parseY_complete {y : Nat} (h : y ≤ 9999) (t : List Char) :
    parseY (pad4 y ++ t) = some (y, t) := by
  simp only [pad4, List.cons_append, List.nil_append, parseY]
  rw [if_pos ⟨digitCh_isDigit (by omega), digitCh_isDigit (by omega),
    digitCh_isDigit (by omega), digitCh_isDigit (by omega)⟩]
  rw [digitVal_digitCh (by omega), digitVal_digitCh (by omega),
    digitVal_digitCh (by omega), digitVal_digitCh (by omega)]
  simp only [Option.some.injEq, Prod.mk.injEq]
  refine ⟨by omega, by trivial⟩

/-- Soundness of the `%m` parser: the consumed text is one of the month
forms and the value is in range. -/
theorem parseM_sound : ∀ {s r : List Char} {m : Nat}, parseM s = some (m, r) →
    (∃ ms ∈ mForms m, s = ms ++ r) ∧ 1 ≤ m ∧ m ≤ 12 := by
  intro s r m h
  match s with
  | [] => exact Option.noConfusion h
  | [a] =>
    simp only [parseM] at h
    split at h
    · rename_i hcond
      simp only [Option.some.injEq, Prod.mk.injEq] at h
      obtain ⟨hm, hr⟩ := h
      subst hr
      have hlt : m ≤ 9 ∧ 1 ≤ m := by
        unfold digitVal at hm
        omega
      refine ⟨⟨[digitCh m], ?_, ?_⟩, by omega, by omega⟩
      · simp [mForms, show m < 10 by omega]
      · have : digitCh m = a := by
          rw [← hm]
          unfold digitVal
          exact digit_eq_digitCh (by omega) (by omega)
        rw [this]
        rfl
    · exact Option.noConfusion h
  | a :: b :: s2 =>
    simp only [parseM] at h
    split at h
    · -- 1[0-2]
      rename_i hcond
      obtain ⟨ha, hb1, hb2⟩ := hcond
      simp only [Option.some.injEq, Prod.mk.injEq] at h
      obtain ⟨hm, hr⟩ := h
      subst hr
      have hm10 : 10 ≤ m ∧ m ≤ 12 := by
        unfold digitVal at hm
        omega
      refine ⟨⟨pad2 m, ?_, ?_⟩, by omega, by omega⟩
      · simp [mForms, show ¬ m < 10 by omega]
      · simp only [pad2, List.cons_append, List.nil_append, List.cons.injEq]
        refine ⟨?_, ?_, by trivial⟩
        · have h1 : m / 10 % 10 = 1 := by omega
          rw [h1, ha]
          decide
        · have h2 : m % 10 = b.toNat - 48 := by
            unfold digitVal at hm
            omega
          rw [h2, digit_eq_digitCh hb1 (by omega)]
    · split at h
      · -- 0[1-9]
        rename_i hcond
        obtain ⟨ha, hb1, hb2⟩ := hcond
        simp only [Option.some.injEq, Prod.mk.injEq] at h
        obtain ⟨hm, hr⟩ := h
        subst hr
        have hm9 : 1 ≤ m ∧ m ≤ 9 := by
          unfold digitVal at hm
          omega
        refine ⟨⟨['0', digitCh m], ?_, ?_⟩, by omega, by omega⟩
        · simp [mForms, show m < 10 by omega]
        · simp only [List.cons_append, List.nil_append, List.cons.injEq]
          refine ⟨ha, ?_, by trivial⟩
          rw [← hm]
          unfold digitVal
          rw [digit_eq_digitCh (by omega) (by omega)]
      · split at h
        · -- [1-9]
          rename_i hcond
          obtain ⟨ha1, ha2⟩ := hcond
          simp only [Option.some.injEq, Prod.mk.injEq] at h
          obtain ⟨hm, hr⟩ := h
          subst hr
          have hm9 : 1 ≤ m ∧ m ≤ 9 := by
            unfold digitVal at hm
            omega
          refine ⟨⟨[digitCh m], ?_, ?_⟩, by omega, by omega⟩
          · simp [mForms, show m < 10 by omega]
          · simp only [List.cons_append, List.nil_append, List.cons.injEq]
            refine ⟨?_, by trivial⟩
            rw [← hm]
            unfold digitVal
            rw [digit_eq_digitCh (by omega) (by omega)]
        · exact Option.noConfusion h

/-- Soundness of the `%d` parser. -/
theorem parseD_sound : ∀ {s r : List Char} {d : Nat}, parseD s = some (d, r) →
    (∃ ds ∈ dForms d, s = ds ++ r) ∧ 1 ≤ d ∧ d ≤ 31 := by
  intro s r d h
  match s with
  | [] => exact Option.noConfusion h
  | [a] =>
    simp only [parseD] at h
    split at h
    · rename_i hcond
      simp only [Option.some.injEq, Prod.mk.injEq] at h
      obtain ⟨hd, hr⟩ := h
      subst hr
      have hb : 1 ≤ d ∧ d ≤ 9 := by
        unfold digitVal at hd
        omega
      refine ⟨⟨[digitCh d], ?_, ?_⟩, by omega, by omega⟩
      · simp [dForms, show d < 10 by omega]
      · simp only [List.cons_append, List.nil_append, List.cons.injEq]
        refine ⟨?_, by trivial⟩
        rw [← hd]
        unfold digitVal
        rw [digit_eq_digitCh (by omega) (by omega)]
    · exact Option.noConfusion h
  | a :: b :: s2 =>
    simp only [parseD] at h
    split at h
    · -- 3[01]
      rename_i hcond
      obtain ⟨ha, hb1, hb2⟩ := hcond
      simp only [Option.some.injEq, Prod.mk.injEq] at h
      obtain ⟨hd, hr⟩ := h
      subst hr
      have hb : 30 ≤ d ∧ d ≤ 31 := by
        unfold digitVal at hd
        omega
      refine ⟨⟨pad2 d, ?_, ?_⟩, by omega, by omega⟩
      · simp [dForms, show ¬ d < 10 by omega]
      · simp only [pad2, List.cons_append, List.nil_append, List.cons.injEq]
        refine ⟨?_, ?_, by trivial⟩
        · have h1 : d / 10 % 10 = 3 := by omega
          rw [h1, ha]
          decide
        · have h2 : d % 10 = b.toNat - 48 := by
            unfold digitVal at hd
            omega
          rw [h2, digit_eq_digitCh hb1 (by omega)]
    · split at h
      · -- [12]\d
        rename_i hcond
        obtain ⟨⟨ha1, ha2⟩, hbd⟩ := hcond
        obtain ⟨hb1, hb2⟩ := isDigitCh_bounds hbd
        simp only [Option.some.injEq, Prod.mk.injEq] at h
        obtain ⟨hd, hr⟩ := h
        subst hr
        have hb : 10 ≤ d ∧ d ≤ 29 := by
          unfold digitVal at hd
          omega
        refine ⟨⟨pad2 d, ?_, ?_⟩, by omega, by omega⟩
        · simp [dForms, show ¬ d < 10 by omega]
        · simp only [pad2, List.cons_append, List.nil_append, List.cons.injEq]
          refine ⟨?_, ?_, by trivial⟩
          · have h1 : d / 10 % 10 = a.toNat - 48 := by
              unfold digitVal at hd
              omega
            rw [h1, digit_eq_digitCh (by omega) (by omega)]
          · have h2 : d % 10 = b.toNat - 48 := by
              unfold digitVal at hd
              omega
            rw [h2, digit_eq_digitCh hb1 (by omega)]
      · split at h
        · -- 0[1-9]
          rename_i hcond
          obtain ⟨ha, hb1, hb2⟩ := hcond
          simp only [Option.some.injEq, Prod.mk.injEq] at h
          obtain ⟨hd, hr⟩ := h
          subst hr
          have hb : 1 ≤ d ∧ d ≤ 9 := by
            unfold digitVal at hd
            omega
          refine ⟨⟨['0', digitCh d], ?_, ?_⟩, by omega, by omega⟩
          · simp [dForms, show d < 10 by omega]
          · simp only [List.cons_append, List.nil_append, List.cons.injEq]
            refine ⟨ha, ?_, by trivial⟩
            rw [← hd]
            unfold digitVal
            rw [digit_eq_digitCh (by omega) (by omega)]
        · split at h
          · -- [1-9]
            rename_i hcond
            obtain ⟨ha1, ha2⟩ := hcond
            simp only [Option.some.injEq, Prod.mk.injEq] at h
            obtain ⟨hd, hr⟩ := h
            subst hr
            have hb : 1 ≤ d ∧ d ≤ 9 := by
              unfold digitVal at hd
              omega
            refine ⟨⟨[digitCh d], ?_, ?_⟩, by omega, by omega⟩
            · simp [dForms, show d < 10 by omega]
            · simp only [List.cons_append, List.nil_append, List.cons.injEq]
              refine ⟨?_, by trivial⟩
              rw [← hd]
              unfold digitVal
              rw [digit_eq_digitCh (by omega) (by omega)]
          · exact Option.noConfusion h

theorem daysInMonth_le_31 (y m : Nat) : daysInMonth y m ≤ 31 := by
  unfold daysInMonth
  split
  · split <;> omega
  · split <;> omega

theorem parseM_two {m : Nat} (h1 : 10 ≤ m) (h2 : m ≤ 12) (t : List Char) :
    parseM (pad2 m ++ t) = some (m, t) := by
  have hdiv : m / 10 % 10 = 1 := by omega
  have hmod : m % 10 < 10 := by omega
  simp only [pad2, hdiv, List.cons_append, List.nil_append, parseM]
  rw [if_pos ⟨by decide, by rw [digitCh_toNat hmod]; omega, by rw [digitCh_toNat hmod]; omega⟩]
  rw [digitVal_digitCh hmod]
  simp only [Option.some.injEq, Prod.mk.injEq]
  exact ⟨by omega, by trivial⟩

theorem parseM_one {m : Nat} (h1 : 1 ≤ m) (h2 : m ≤ 9) (b : Char) (hb : b.toNat < 48)
    (t : List Char) : parseM (digitCh m :: b :: t) = some (m, b :: t) := by
  simp only [parseM]
  rw [if_neg (by rintro ⟨-, hx, -⟩; omega)]
  rw [if_neg (by rintro ⟨-, hx, -⟩; omega)]
  rw [if_pos ⟨by rw [digitCh_toNat (by omega)]; omega, by rw [digitCh_toNat (by omega)]; omega⟩]
  rw [digitVal_digitCh (by omega)]

theorem parseM_zero {m : Nat} (h1 : 1 ≤ m) (h2 : m ≤ 9) (t : List Char) :
    parseM ('0' :: digitCh m :: t) = some (m, t) := by
  simp only [parseM]
  rw [if_neg (by rintro ⟨hx, -⟩; exact absurd hx (by decide))]
  rw [if_pos ⟨by trivial, by rw [digitCh_toNat (by omega)]; omega,
    by rw [digitCh_toNat (by omega)]; omega⟩]
  rw [digitVal_digitCh (by omega)]

theorem parseD_two {d : Nat} (h1 : 10 ≤ d) (h2 : d ≤ 31) (t : List Char) :
    parseD (pad2 d ++ t) = some (d, t) := by
  by_cases h30 : 30 ≤ d
  · have hdiv : d / 10 % 10 = 3 := by omega
    have hmod : d % 10 < 10 := by omega
    simp only [pad2, hdiv, List.cons_append, List.nil_append, parseD]
    rw [if_pos ⟨by decide, by rw [digitCh_toNat hmod]; omega, by rw [digitCh_toNat hmod]; omega⟩]
    rw [digitVal_digitCh hmod]
    simp only [Option.some.injEq, Prod.mk.injEq]
    exact ⟨by omega, by trivial⟩
  · have hdiv : d / 10 % 10 = d / 10 := by omega
    have hd10 : d / 10 < 10 := by omega
    have hmod : d % 10 < 10 := by omega
    simp only [pad2, hdiv, List.cons_append, List.nil_append, parseD]
    rw [if_neg (by
      rintro ⟨hx, -⟩
      have := congrArg Char.toNat hx
      rw [digitCh_toNat hd10] at this
      have h51 : ('3' : Char).toNat = 51 := by decide
      rw [h51] at this
      omega)]
    rw [if_pos ⟨⟨by rw [digitCh_toNat hd10]; omega, by rw [digitCh_toNat hd10]; omega⟩,
      digitCh_isDigit hmod⟩]
    rw [digitVal_digitCh hd10, digitVal_digitCh hmod]
    simp only [Option.some.injEq, Prod.mk.injEq]
    exact ⟨by omega, by trivial⟩

theorem parseD_one {d : Nat} (h1 : 1 ≤ d) (h2 : d ≤ 9) :
    parseD [digitCh d] = some (d, []) := by
  simp only [parseD]
  rw [if_pos ⟨by rw [digitCh_toNat (by omega)]; omega, by rw [digitCh_toNat (by omega)]; omega⟩]
  rw [digitVal_digitCh (by omega)]

theorem parseD_zero {d : Nat} (h1 : 1 ≤ d) (h2 : d ≤ 9) (t : List Char) :
    parseD ('0' :: digitCh d :: t) = some (d, t) := by
  simp only [parseD]
  rw [if_neg (by rintro ⟨hx, -⟩; exact absurd hx (by decide))]
  rw [if_neg (by rintro ⟨⟨hx, -⟩, -⟩; exact absurd hx (by decide))]
  rw [if_pos ⟨by trivial, by rw [digitCh_toNat (by omega)]; omega,
    by rw [digitCh_toNat (by omega)]; omega⟩]
  rw [digitVal_digitCh (by omega)]

theorem mem_ymdRenders_iff {v : YMD} {s : List Char} :
    s ∈ ymdRenders v ↔ ∃ ms ∈ mForms v.m, ∃ ds ∈ dForms v.d,
      s = pad4 v.y ++ '-' :: (ms ++ '-' :: ds) := by
  simp only [ymdRenders, List.mem_flatMap, List.mem_map]
  constructor
  · rintro ⟨ms, hms, ds, hds, rfl⟩
    exact ⟨ms, hms, ds, hds, rfl⟩
  · rintro ⟨ms, hms, ds, hds, rfl⟩
    exact ⟨ms, hms, ds, hds, rfl⟩

/-- Soundness: a successful strptime parse means the stem is one of the
renderings of the resulting date, and the date is valid. -/
theorem strptimeYMD_sound {s : List Char} {v : YMD} (h : strptimeYMD s = some v) :
    s ∈ ymdRenders v ∧ validYMD v := by
  unfold strptimeYMD at h
  cases hy : parseY s with
  | none =>
    simp only [hy] at h
    exact Option.noConfusion h
  | some p =>
    obtain ⟨y, r1⟩ := p
    simp only [hy] at h
    cases hr1 : r1 with
    | nil =>
      rw [hr1] at h
      exact Option.noConfusion h
    | cons c1 r1x =>
      rw [hr1] at h
      simp only [] at h
      by_cases hc1 : c1 = '-'
      · rw [if_pos hc1] at h
        cases hm : parseM r1x with
        | none =>
          simp only [hm] at h
          exact Option.noConfusion h
        | some q =>
          obtain ⟨m, r2⟩ := q
          simp only [hm] at h
          cases hr2 : r2 with
          | nil =>
            rw [hr2] at h
            exact Option.noConfusion h
          | cons c2 r2x =>
            rw [hr2] at h
            simp only [] at h
            by_cases hc2 : c2 = '-'
            · rw [if_pos hc2] at h
              cases hd : parseD r2x with
              | none =>
                simp only [hd] at h
                exact Option.noConfusion h
              | some w =>
                obtain ⟨d, r3⟩ := w
                simp only [hd] at h
                cases hr3 : r3 with
                | cons c3 r3x =>
                  rw [hr3] at h
                  exact Option.noConfusion h
                | nil =>
                  rw [hr3] at h
                  simp only [] at h
                  split at h
                  · rename_i hok
                    injection h with h2
                    subst h2
                    obtain ⟨hys, hy9⟩ := parseY_sound hy
                    obtain ⟨⟨ms, hms, hmss⟩, hm1, hm2⟩ := parseM_sound hm
                    obtain ⟨⟨ds, hds, hdss⟩, hd1, -⟩ := parseD_sound hd
                    subst hr1
                    subst hc1
                    subst hr2
                    subst hc2
                    subst hr3
                    rw [List.append_nil] at hdss
                    constructor
                    · rw [hys, hmss, hdss]
                      exact mem_ymdRenders_iff.mpr ⟨ms, hms, ds, hds, rfl⟩
                    · exact ⟨hok.1, hy9, hm1, hm2, hd1, hok.2⟩
                  · exact Option.noConfusion h
            · rw [if_neg hc2] at h
              exact Option.noConfusion h
      · rw [if_neg hc1] at h
        exact Option.noConfusion h

/-- Completeness: every rendering of a valid date parses to it. -/
theorem strptimeYMD_complete {s : List Char} {v : YMD} (hmem : s ∈ ymdRenders v)
    (hval : validYMD v) : strptimeYMD s = some v := by
  obtain ⟨ms, hms, ds, hds, rfl⟩ := mem_ymdRenders_iff.mp hmem
  obtain ⟨hy1, hy2, hm1, hm2, hd1, hd2⟩ := hval
  have hd31 : v.d ≤ 31 := le_trans hd2 (daysInMonth_le_31 _ _)
  have hdash : ('-' : Char).toNat < 48 := by decide
  have hparseD : parseD ds = some (v.d, []) := by
    by_cases hdlt : v.d < 10
    · rcases (by simpa [dForms, hdlt] using hds : ds = [digitCh v.d] ∨ ds = ['0', digitCh v.d])
        with rfl | rfl
      · exact parseD_one hd1 (by omega)
      · exact parseD_zero hd1 (by omega) []
    · have : ds = pad2 v.d := by simpa [dForms, hdlt] using hds
      subst this
      have := parseD_two (by omega : 10 ≤ v.d) hd31 []
      rwa [List.append_nil] at this
  have hparseM : parseM (ms ++ '-' :: ds) = some (v.m, '-' :: ds) := by
    by_cases hmlt : v.m < 10
    · rcases (by simpa [mForms, hmlt] using hms : ms = [digitCh v.m] ∨ ms = ['0', digitCh v.m])
        with rfl | rfl
      · exact parseM_one hm1 (by omega) '-' hdash ds
      · exact parseM_zero hm1 (by omega) ('-' :: ds)
    · have : ms = pad2 v.m := by simpa [mForms, hmlt] using hms
      subst this
      exact parseM_two (by omega : 10 ≤ v.m) hm2 ('-' :: ds)
  unfold strptimeYMD
  rw [parseY_complete hy2]
  simp only [hparseM, hparseD, eq_self_iff_true, if_true]
  rw [if_pos ⟨hy1, hd2⟩]

/-- C4 counterexample: the stem `2024-1-5` does not match the strict
`YYYY-MM-DD` pattern, yet the Date Resolver returns the date 2024-01-05
rather than "no date" — strptime's `%m`/`%d` accept unpadded one-digit
fields. -/
theorem C4_counterexample :
    extract_date_from_filename "2024-1-5.pdf" = some ⟨2024, 1, 5⟩ ∧
    isStrictYMD (stemChars (basenameChars "2024-1-5.pdf".data)) = false := by
  constructor
  · rfl
  · rfl

/-- C4 amended: the Date Resolver returns `some v` exactly when the
stem of the filename's basename is one of the strptime renderings of
`v` — four year digits, a dash, the month with or without zero padding,
a dash, the day with or without zero padding — and `v` is a valid
calendar date.  In particular every strict `YYYY-MM-DD` stem of a valid
date resolves to that date, every other stem shape yields "no date",
but unpadded one-digit months and days are also accepted. -/
theorem C4_amended_resolver (fname : String) (v : YMD) :
    extract_date_from_filename fname = some v ↔
      stemChars (basenameChars fname.data) ∈ ymdRenders v ∧ validYMD v := by
  constructor
  · intro h
    exact strptimeYMD_sound h
  · rintro ⟨h1, h2⟩
    exact strptimeYMD_complete h1 h2

/-- C4 witness: the characterisation instantiated at a concrete padded
filename and date. -/
theorem C4_amended_resolver_witness :
    extract_date_from_filename "2024-01-05.pdf" = some ⟨2024, 1, 5⟩ ↔
      stemChars (basenameChars "2024-01-05.pdf".data) ∈ ymdRenders ⟨2024, 1, 5⟩ ∧
        validYMD ⟨2024, 1, 5⟩ :=
  C4_amended_resolver "2024-01-05.pdf" ⟨2024, 1, 5⟩

end PdfCsv
